import Mathlib

/-!
Verification of the diff/alignment core of the File-Comparison-Tool repository
(src/disbin.py).  The program splits two input strings into lines, runs the
Python standard library function difflib.ndiff over the two line lists, and
renders the tagged lines it yields into an HTML table of side-by-side rows
(FileComparisonTool.generate_diff_html, src/disbin.py lines 66-148).  File
loading and validation (FileComparisonTool.load_file_content, lines 35-53)
size-checks the raw bytes and decodes them as UTF-8.

The embedding below models Python strings as `List Char` (sequences of Unicode
scalar values), byte buffers as `List Nat`, and translates, definition by
definition, the code of generate_diff_html / load_file_content together with
the difflib routines they invoke (CPython 3.11 difflib.py: SequenceMatcher
with autojunk, Differ.compare, the fancy replace machinery and ndiff).  The
IEEE-754 ratio arithmetic of difflib (2.0*M/T compared against 0.74/0.75) is
modelled by exact fractions; for the line/character lengths reachable here the
float comparisons agree exactly with the rational ones, since consecutive
representable ratios are farther apart than the rounding error.  Python while
loops and the recursion of difflib are realized with explicit fuel arguments;
every call site passes fuel that provably dominates the number of iterations,
so the fuel-exhaustion branches are never taken.
-/

namespace Disbin

/-! ## Python string and slice helpers -/

/-- Python slice x[lo:hi] over a list. -/
def sub {α : Type} (l : List α) (lo hi : Nat) : List α :=
  (l.drop lo).take (hi - lo)

/-- Line-boundary characters of Python str.splitlines: \n, \r, \v, \f,
\x1c, \x1d, \x1e, \x85,  ,   (\r\n is treated as one boundary). -/
def isLineBreak (c : Char) : Bool :=
  c = '\n' || c = '\r' || c = '\x0b' || c = '\x0c' ||
  c = '\x1c' || c = '\x1d' || c = '\x1e' || c = '\x85' ||
  c = ' ' || c = ' '

/-- Helper for `splitlines`: accumulates the current (reversed) line. -/
def splitlinesGo : List Char → List Char → List (List Char)
  | acc, [] => if acc.isEmpty then [] else [acc.reverse]
  | acc, '\r' :: '\n' :: rest => acc.reverse :: splitlinesGo [] rest
  | acc, c :: rest =>
      if isLineBreak c then acc.reverse :: splitlinesGo [] rest
      else splitlinesGo (c :: acc) rest

/-- Python str.splitlines(): split at line boundaries, boundaries not kept,
no trailing empty line for a trailing boundary. -/
def splitlines (s : List Char) : List (List Char) :=
  splitlinesGo [] s

/-! ## difflib.SequenceMatcher

Translated from CPython 3.11 difflib.py.  The matcher state (b2j, bjunk,
bpopular) is represented pointwise: `b2j isjunk autojunk b e` is the list of
positions the dict b2j maps e to (empty for junk/popular keys, exactly as
after the purges in SequenceMatcher.__chain_b), and the bjunk set membership
test is `isjunk` itself, which agrees with the Python set on every element of
b (the only elements it is ever queried on). -/

/-- Ascending list of positions of e in b (the b2j entry before purging). -/
def posList {α : Type} [DecidableEq α] (b : List α) (e : α) : List Nat :=
  (List.range b.length).filter (fun j => b.get? j = some e)

/-- The b2j mapping of SequenceMatcher.__chain_b after purging junk keys and,
when autojunk is on and len(b) >= 200, popular keys (count > len(b)//100 + 1). -/
def b2j {α : Type} [DecidableEq α] (isjunk : α → Bool) (autojunk : Bool)
    (b : List α) (e : α) : List Nat :=
  if isjunk e then []
  else
    let ps := posList b e
    if autojunk && decide (200 ≤ b.length) &&
        decide (b.length / 100 + 1 < ps.length) then []
    else ps

/-- State of the dynamic-programming loop of find_longest_match:
best block and the j2len mapping of the current row (default 0). -/
structure DPState where
  besti : Nat
  bestj : Nat
  bestsize : Nat
  j2len : Nat → Nat

/-- Inner loop body of find_longest_match for one j: newj2len[j] = k is
recorded and the best block is updated when k > bestsize.  Python reads
j2len.get(j-1, 0) from the previous row; the dict lookup of key -1 yields
the default 0, which the `j = 0` guard reproduces. -/
def dpInner (i : Nat) (old : Nat → Nat) :
    ((Nat → Nat) × Nat × Nat × Nat) → Nat → ((Nat → Nat) × Nat × Nat × Nat)
  | (nj, bi, bj, bs), j =>
      let k := (if j = 0 then 0 else old (j - 1)) + 1
      let nj2 : Nat → Nat := fun x => if x = j then k else nj x
      -- i-k+1 and j-k+1 of the source, with k <= i+1 and k <= j+1 always,
      -- written so the Nat subtraction cannot truncate
      if bs < k then (nj2, i + 1 - k, j + 1 - k, k) else (nj2, bi, bj, bs)

/-- Outer loop body of find_longest_match for one i: iterate over the
positions b2j.get(a[i]) restricted to blo <= j < bhi.  Python skips j < blo
with continue and leaves the (ascending) list at the first j >= bhi with
break; on the ascending position list both are the same as filtering. -/
def dpOuter {α : Type} [DecidableEq α] (a : List α) (b2jf : α → List Nat)
    (blo bhi : Nat) (st : DPState) (i : Nat) : DPState :=
  let js : List Nat :=
    match a.get? i with
    | some e => (b2jf e).filter (fun j => decide (blo ≤ j) && decide (j < bhi))
    | none => []
  let r := js.foldl (dpInner i st.j2len) ((fun _ => 0), st.besti, st.bestj, st.bestsize)
  ⟨r.2.1, r.2.2.1, r.2.2.2, r.1⟩

/-- The junk-free dynamic-programming phase of find_longest_match. -/
def dpPhase {α : Type} [DecidableEq α] (a : List α) (b2jf : α → List Nat)
    (alo ahi blo bhi : Nat) : DPState :=
  (List.range' alo (ahi - alo)).foldl (dpOuter a b2jf blo bhi)
    ⟨alo, blo, 0, fun _ => 0⟩

/-- Guard of the backward extension loops: besti > alo, bestj > blo, the two
elements are equal, and the b element satisfies the junk condition `cond`.
In the source the indices are always in bounds at this point; out-of-bounds
lookups make the guard false. -/
def extGuardLo {α : Type} [DecidableEq α] (a b : List α) (cond : α → Bool)
    (alo blo besti bestj : Nat) : Bool :=
  decide (alo < besti) && decide (blo < bestj) &&
    (match a.get? (besti - 1), b.get? (bestj - 1) with
     | some x, some y => cond y && decide (x = y)
     | _, _ => false)

/-- Guard of the forward extension loops at offset bestsize. -/
def extGuardHi {α : Type} [DecidableEq α] (a b : List α) (cond : α → Bool)
    (ahi bhi besti bestj bestsize : Nat) : Bool :=
  decide (besti + bestsize < ahi) && decide (bestj + bestsize < bhi) &&
    (match a.get? (besti + bestsize), b.get? (bestj + bestsize) with
     | some x, some y => cond y && decide (x = y)
     | _, _ => false)

/-- Backward extension while-loop of find_longest_match (fuel-bounded; each
iteration decrements besti, so fuel = besti dominates the iteration count). -/
def extendLo {α : Type} [DecidableEq α] (a b : List α) (cond : α → Bool)
    (alo blo : Nat) : Nat → Nat × Nat × Nat → Nat × Nat × Nat
  | 0, st => st
  | fuel + 1, (besti, bestj, bestsize) =>
      if extGuardLo a b cond alo blo besti bestj then
        extendLo a b cond alo blo fuel (besti - 1, bestj - 1, bestsize + 1)
      else (besti, bestj, bestsize)

/-- Forward extension while-loop of find_longest_match (fuel-bounded; each
iteration increments bestsize while besti + bestsize < ahi, so fuel = ahi
dominates the iteration count). -/
def extendHi {α : Type} [DecidableEq α] (a b : List α) (cond : α → Bool)
    (ahi bhi : Nat) : Nat → Nat × Nat × Nat → Nat × Nat × Nat
  | 0, st => st
  | fuel + 1, (besti, bestj, bestsize) =>
      if extGuardHi a b cond ahi bhi besti bestj bestsize then
        extendHi a b cond ahi bhi fuel (besti, bestj, bestsize + 1)
      else (besti, bestj, bestsize)

/-- SequenceMatcher.find_longest_match on a[alo:ahi] and b[blo:bhi]:
junk-free DP phase, then the four extension loops (non-junk backward,
non-junk forward, junk backward, junk forward). -/
def findLongestMatch {α : Type} [DecidableEq α] (isjunk : α → Bool)
    (autojunk : Bool) (a b : List α) (alo ahi blo bhi : Nat) : Nat × Nat × Nat :=
  let b2jf := b2j isjunk autojunk b
  let d := dpPhase a b2jf alo ahi blo bhi
  let notjunk : α → Bool := fun e => ! isjunk e
  let s1 := extendLo a b notjunk alo blo d.besti (d.besti, d.bestj, d.bestsize)
  let s2 := extendHi a b notjunk ahi bhi ahi s1
  let s3 := extendLo a b isjunk alo blo s2.1 s2
  extendHi a b isjunk ahi bhi ahi s3

/-- Recursive core of SequenceMatcher.get_matching_blocks.  The CPython code
drives an explicit queue and sorts the collected blocks afterwards; since the
blocks of the two recursive calls lie strictly left and right of the found
block, the sorted result equals this in-order traversal.  Fuel dominates the
recursion depth: each recursive call strictly shrinks the a-range. -/
def matchingBlocksRec {α : Type} [DecidableEq α] (isjunk : α → Bool)
    (autojunk : Bool) (a b : List α) :
    Nat → Nat → Nat → Nat → Nat → List (Nat × Nat × Nat)
  | 0, _, _, _, _ => []
  | fuel + 1, alo, ahi, blo, bhi =>
      let m := findLongestMatch isjunk autojunk a b alo ahi blo bhi
      let i := m.1
      let j := m.2.1
      let k := m.2.2
      if k = 0 then []
      else
        (if alo < i && blo < j then
          matchingBlocksRec isjunk autojunk a b fuel alo i blo j
         else []) ++
        [(i, j, k)] ++
        (if i + k < ahi && j + k < bhi then
          matchingBlocksRec isjunk autojunk a b fuel (i + k) ahi (j + k) bhi
         else [])

/-- The adjacent-block collapsing loop of get_matching_blocks, started with
the dummy current block (0, 0, 0); a current block with size 0 is dropped. -/
def collapseBlocks : (Nat × Nat × Nat) → List (Nat × Nat × Nat) → List (Nat × Nat × Nat)
  | (i1, j1, k1), [] => if k1 = 0 then [] else [(i1, j1, k1)]
  | (i1, j1, k1), (i2, j2, k2) :: rest =>
      if i1 + k1 = i2 && j1 + k1 = j2 then
        collapseBlocks (i1, j1, k1 + k2) rest
      else
        (if k1 = 0 then [] else [(i1, j1, k1)]) ++ collapseBlocks (i2, j2, k2) rest

/-- SequenceMatcher.get_matching_blocks: recursive block collection, adjacent
collapse, and the terminating sentinel (len(a), len(b), 0). -/
def getMatchingBlocks {α : Type} [DecidableEq α] (isjunk : α → Bool)
    (autojunk : Bool) (a b : List α) : List (Nat × Nat × Nat) :=
  collapseBlocks (0, 0, 0)
    (matchingBlocksRec isjunk autojunk a b a.length 0 a.length 0 b.length) ++
  [(a.length, b.length, 0)]

/-- Opcode tags of SequenceMatcher.get_opcodes. -/
inductive OpTag where
  | replace
  | delete
  | insert
  | equal
deriving DecidableEq, Repr

/-- Loop of get_opcodes over the matching blocks, carrying the (i, j)
position reached so far. -/
def opcodesFrom : Nat → Nat → List (Nat × Nat × Nat) →
    List (OpTag × Nat × Nat × Nat × Nat)
  | _, _, [] => []
  | i, j, (ai, bj, size) :: rest =>
      (if i < ai && j < bj then [(OpTag.replace, i, ai, j, bj)]
       else if i < ai then [(OpTag.delete, i, ai, j, bj)]
       else if j < bj then [(OpTag.insert, i, ai, j, bj)]
       else []) ++
      (if size = 0 then [] else [(OpTag.equal, ai, ai + size, bj, bj + size)]) ++
      opcodesFrom (ai + size) (bj + size) rest

/-- SequenceMatcher.get_opcodes. -/
def getOpcodes {α : Type} [DecidableEq α] (isjunk : α → Bool) (autojunk : Bool)
    (a b : List α) : List (OpTag × Nat × Nat × Nat × Nat) :=
  opcodesFrom 0 0 (getMatchingBlocks isjunk autojunk a b)

/-! ## Ratio arithmetic

difflib._calculate_ratio(matches, length) is 2.0*matches/length (or 1.0 for
length 0).  The floats are modelled as exact unreduced fractions with a
positive denominator; < is the exact comparison by cross multiplication. -/

/-- Exact fraction (denominator always positive at every use site). -/
structure Frac where
  num : Nat
  den : Nat
deriving DecidableEq, Repr

/-- Exact comparison of two fractions. -/
def fracLt (x y : Frac) : Bool :=
  decide (x.num * y.den < y.num * x.den)

/-- difflib._calculate_ratio (first argument is the match count). -/
def calcRatio (m length : Nat) : Frac :=
  if length = 0 then ⟨1, 1⟩ else ⟨2 * m, length⟩

/-- SequenceMatcher.ratio(): sum of matching-block sizes over total length. -/
def ratioQ {α : Type} [DecidableEq α] (isjunk : α → Bool) (autojunk : Bool)
    (a b : List α) : Frac :=
  calcRatio
    (((getMatchingBlocks isjunk autojunk a b).map (fun t => t.2.2)).foldl (· + ·) 0)
    (a.length + b.length)

/-- Loop body of quick_ratio: avail starts at the count of elt in b and is
decremented per occurrence in a; a match is counted while it is positive.
The avail dict is an association list keyed by element. -/
def quickRatioStep {α : Type} [DecidableEq α] (b : List α) :
    (List (α × Int) × Nat) → α → (List (α × Int) × Nat)
  | (avail, cnt), elt =>
      let numb : Int :=
        match avail.lookup elt with
        | some v => v
        | none => (b.count elt : Int)
      ((elt, numb - 1) :: avail.eraseP (fun p => decide (p.1 = elt)),
       if 0 < numb then cnt + 1 else cnt)

/-- SequenceMatcher.quick_ratio(): multiset-intersection upper bound. -/
def quickRatioQ {α : Type} [DecidableEq α] (a b : List α) : Frac :=
  calcRatio (a.foldl (quickRatioStep b) ([], 0)).2 (a.length + b.length)

/-- SequenceMatcher.real_quick_ratio(). -/
def realQuickRatioQ {α : Type} (a b : List α) : Frac :=
  calcRatio (min a.length b.length) (a.length + b.length)

/-! ## difflib.Differ / ndiff

ndiff(a, b) is Differ(linejunk=None, charjunk=IS_CHARACTER_JUNK).compare(a, b).
A line is a `List Char`; a tagged output line is the full Python string, i.e.
the two-character tag prepended to the content. -/

/-- A line of text. -/
abbrev Line := List Char

/-- difflib.IS_CHARACTER_JUNK: space or tab. -/
def isCharacterJunk (c : Char) : Bool :=
  c = ' ' || c = '\t'

/-- The line-level junk predicate: ndiff passes linejunk=None, so no line is
junk (autojunk popularity still prunes b2j). -/
def noLineJunk : Line → Bool := fun _ => false

/-- The element at a valid index (call sites guarantee validity; Python would
raise IndexError otherwise). -/
def lineAt (x : List Line) (i : Nat) : Line :=
  match x.get? i with
  | some l => l
  | none => []

/-- Differ._dump: one tagged line per element of x[lo:hi]. -/
def dump (tag : List Char) (x : List Line) (lo hi : Nat) : List Line :=
  (sub x lo hi).map (fun line => tag ++ line)

/-- Differ._plain_replace: dump the shorter block first. -/
def plainReplace (a b : List Line) (alo ahi blo bhi : Nat) : List Line :=
  if bhi - blo < ahi - alo then
    dump ['+', ' '] b blo bhi ++ dump ['-', ' '] a alo ahi
  else
    dump ['-', ' '] a alo ahi ++ dump ['+', ' '] b blo bhi

/-- One step of the best-pair scan of Differ._fancy_replace for the pair
(a[i], b[j]): an identical pair is remembered in the eq component (first one
wins) and skipped; otherwise the pair is scored with the three ratio tests
and becomes the best pair when all exceed the best ratio so far. -/
def fancyScanStep (a b : List Line)
    (st : Frac × Option (Nat × Nat) × Option (Nat × Nat)) (p : Nat × Nat) :
    Frac × Option (Nat × Nat) × Option (Nat × Nat) :=
  match a.get? p.1, b.get? p.2 with
  | some ai, some bj =>
      if ai = bj then
        (st.1, st.2.1, match st.2.2 with | none => some p | some q => some q)
      else
        if fracLt st.1 (realQuickRatioQ ai bj) &&
           fracLt st.1 (quickRatioQ ai bj) &&
           fracLt st.1 (ratioQ isCharacterJunk true ai bj) then
          (ratioQ isCharacterJunk true ai bj, some p, st.2.2)
        else st
  | _, _ => st

/-- The full scan of Differ._fancy_replace: j runs over [blo, bhi) in the
outer loop, i over [alo, ahi) in the inner loop; best_ratio starts at 0.74. -/
def fancyScan (a b : List Line) (alo ahi blo bhi : Nat) :
    Frac × Option (Nat × Nat) × Option (Nat × Nat) :=
  (((List.range' blo (bhi - blo)).flatMap
      (fun j => (List.range' alo (ahi - alo)).map (fun i => (i, j))))).foldl
    (fancyScanStep a b) (⟨74, 100⟩, none, none)

/-- Intraline tag accumulation of Differ._fancy_replace: one step per
character-level opcode, appending to atags/btags. -/
def tagAccum : (List Char × List Char) → (OpTag × Nat × Nat × Nat × Nat) →
    (List Char × List Char)
  | (ta, tb), (tag, i1, i2, j1, j2) =>
      let la := i2 - i1
      let lb := j2 - j1
      match tag with
      | OpTag.replace => (ta ++ List.replicate la '^', tb ++ List.replicate lb '^')
      | OpTag.delete => (ta ++ List.replicate la '-', tb)
      | OpTag.insert => (ta, tb ++ List.replicate lb '+')
      | OpTag.equal => (ta ++ List.replicate la ' ', tb ++ List.replicate lb ' ')

/-- The intraline atags/btags for a synch pair, from the character-level
opcodes of SequenceMatcher(IS_CHARACTER_JUNK, aelt, belt). -/
def intralineTags (aelt belt : Line) : List Char × List Char :=
  (getOpcodes isCharacterJunk true aelt belt).foldl tagAccum ([], [])

/-- Python str.isspace restricted to the characters that can appear in the
tag strings handled by _qformat (which are built from the ASCII characters
space, tab and the markers) together with the elements of the compared lines;
only the whitespace recognition of these matters here. -/
def isPySpace (c : Char) : Bool :=
  c = ' ' || c = '\t' || c = '\n' || c = '\r' || c = '\x0b' || c = '\x0c' ||
  c = '\x1c' || c = '\x1d' || c = '\x1e' || c = '\x1f' || c = '\x85' ||
  c = '\xa0' || c = ' ' || c = ' '

/-- difflib._keep_original_ws: keep original whitespace of the line where the
tag is a plain space (zip truncates to the shorter argument, as in Python). -/
def keepOriginalWs (s tags : List Char) : List Char :=
  (s.zip tags).map (fun p => if p.2 = ' ' && isPySpace p.1 then p.1 else p.2)

/-- Python str.rstrip() for the tag strings. -/
def rstrip (l : List Char) : List Char :=
  (l.reverse.dropWhile isPySpace).reverse

/-- Differ._qformat: the minus/question/plus/question quad for a synch pair
(the question lines are omitted when the stripped tag string is empty). -/
def qformat (aline bline ta tb : Line) : List Line :=
  let ta2 := rstrip (keepOriginalWs aline ta)
  let tb2 := rstrip (keepOriginalWs bline tb)
  [['-', ' '] ++ aline] ++
  (if ta2.isEmpty then [] else [['?', ' '] ++ ta2 ++ ['\n']]) ++
  [['+', ' '] ++ bline] ++
  (if tb2.isEmpty then [] else [['?', ' '] ++ tb2 ++ ['\n']])

/-- Differ._fancy_replace (with Differ._fancy_helper inlined at its four call
sites; `fancyHelper` below abbreviates the inlined dispatch and is equal to
it definitionally).  Fuel dominates the recursion depth: every recursive call
strictly shrinks the a-range, and all call sites pass fuel >= ahi - alo. -/
def fancyReplace (a b : List Line) : Nat → Nat → Nat → Nat → Nat → List Line
  | 0, _, _, _, _ => []
  | fuel + 1, alo, ahi, blo, bhi =>
      let scan := fancyScan a b alo ahi blo bhi
      if fracLt scan.1 ⟨75, 100⟩ then
        match scan.2.2 with
        | none => plainReplace a b alo ahi blo bhi
        | some (ei, ej) =>
            (if alo < ei then
              (if blo < ej then fancyReplace a b fuel alo ei blo ej
               else dump ['-', ' '] a alo ei)
             else if blo < ej then dump ['+', ' '] b blo ej else []) ++
            [[' ', ' '] ++ lineAt a ei] ++
            (if ei + 1 < ahi then
              (if ej + 1 < bhi then fancyReplace a b fuel (ei + 1) ahi (ej + 1) bhi
               else dump ['-', ' '] a (ei + 1) ahi)
             else if ej + 1 < bhi then dump ['+', ' '] b (ej + 1) bhi else [])
      else
        match scan.2.1 with
        | none => []
        | some (bi, bj) =>
            let aelt := lineAt a bi
            let belt := lineAt b bj
            let tags := intralineTags aelt belt
            (if alo < bi then
              (if blo < bj then fancyReplace a b fuel alo bi blo bj
               else dump ['-', ' '] a alo bi)
             else if blo < bj then dump ['+', ' '] b blo bj else []) ++
            qformat aelt belt tags.1 tags.2 ++
            (if bi + 1 < ahi then
              (if bj + 1 < bhi then fancyReplace a b fuel (bi + 1) ahi (bj + 1) bhi
               else dump ['-', ' '] a (bi + 1) ahi)
             else if bj + 1 < bhi then dump ['+', ' '] b (bj + 1) bhi else [])

/-- Differ._fancy_helper: dispatch to fancy replace / dump by emptiness. -/
def fancyHelper (a b : List Line) (fuel alo ahi blo bhi : Nat) : List Line :=
  if alo < ahi then
    (if blo < bhi then fancyReplace a b fuel alo ahi blo bhi
     else dump ['-', ' '] a alo ahi)
  else if blo < bhi then dump ['+', ' '] b blo bhi else []

/-- Differ.compare(a, b) for ndiff (linejunk=None, charjunk=
IS_CHARACTER_JUNK): dispatch on the line-level opcodes. -/
def compareLines (a b : List Line) : List Line :=
  (getOpcodes noLineJunk true a b).flatMap fun op =>
    match op with
    | (OpTag.replace, alo, ahi, blo, bhi) => fancyReplace a b (ahi - alo) alo ahi blo bhi
    | (OpTag.delete, alo, ahi, _, _) => dump ['-', ' '] a alo ahi
    | (OpTag.insert, _, _, blo, bhi) => dump ['+', ' '] b blo bhi
    | (OpTag.equal, alo, ahi, _, _) => dump [' ', ' '] a alo ahi

/-! ## FileComparisonTool.generate_diff_html (src/disbin.py lines 66-148)

The method splits both inputs with str.splitlines, feeds them to
difflib.ndiff, and renders each tagged line by its two-character prefix:
"  " an unchanged row, "- " a removed row, "+ " an added row; any other
prefix (the "? " hint lines of ndiff) adds nothing.  Line numbers start at 1
and advance with the populated sides. -/

/-- Decimal rendering of a line number, as Python str formatting does. -/
def natStr (n : Nat) : List Char := (Nat.repr n).data

/-- The style/table header of generate_diff_html (lines 68-101). -/
def htmlHeader : List Char :=
  ("\n        <style>\n            .diff-container \x7b font-family: \x27Monaco\x27, \x27Consolas\x27, monospace; \x7d\n            .diff-table \x7b width: 100%; border-collapse: collapse; border: 1px solid #ddd; \x7d\n            .diff-table td \x7b padding: 5px 10px; vertical-align: top; border: 1px solid #ddd; \x7d\n            .line-num \x7b \n                width: 50px;\n                background-color: #f8f9fa;\n                color: #6c757d;\n                text-align: right;\n                user-select: none;\n                border-right: 1px solid #ddd;\n            \x7d\n            .added \x7b background-color: #e6ffe6; \x7d\n            .removed \x7b background-color: #ffe6e6; \x7d\n            .modified \x7b background-color: #fff5b1; \x7d\n            .diff-header \x7b \n                background-color: #f8f9fa;\n                font-weight: bold;\n                text-align: center;\n                padding: 10px;\n                border-bottom: 2px solid #ddd;\n            \x7d\n            .word-added \x7b background-color: #a6f3a6; \x7d\n            .word-removed \x7b background-color: #f8a6a6; \x7d\n            .word-modified \x7b background-color: #fee090; \x7d\n        </style>\n        <div class=\"diff-container\">\n        <table class=\"diff-table\">\n            <tr>\n                <th colspan=\"2\" class=\"diff-header\">Original File</th>\n                <th colspan=\"2\" class=\"diff-header\">Modified File</th>\n            </tr>\n        ").data

/-- The closing markup appended at line 147. -/
def htmlFooter : List Char := "</table></div>".data

/-- The row markup of the unchanged branch (lines 114-121). -/
def unchangedRowHtml (n1 n2 : Nat) (content : Line) : List Char :=
  "\n                    <tr>\n                        <td class=\"line-num\">".data ++
  natStr n1 ++
  "</td>\n                        <td>".data ++ content ++
  "</td>\n                        <td class=\"line-num\">".data ++
  natStr n2 ++
  "</td>\n                        <td>".data ++ content ++
  "</td>\n                    </tr>\n                ".data

/-- The row markup of the removed branch (lines 126-133). -/
def removedRowHtml (n1 : Nat) (content : Line) : List Char :=
  "\n                    <tr>\n                        <td class=\"line-num\">".data ++
  natStr n1 ++
  "</td>\n                        <td class=\"removed\">".data ++ content ++
  "</td>\n                        <td class=\"line-num\"></td>\n                        <td></td>\n                    </tr>\n                ".data

/-- The row markup of the added branch (lines 137-144). -/
def addedRowHtml (n2 : Nat) (content : Line) : List Char :=
  "\n                    <tr>\n                        <td class=\"line-num\"></td>\n                        <td></td>\n                        <td class=\"line-num\">".data ++
  natStr n2 ++
  "</td>\n                        <td class=\"added\">".data ++ content ++
  "</td>\n                    </tr>\n                ".data

/-- The rendering loop of generate_diff_html (lines 109-145), written as the
concatenation it accumulates: per tagged line the branch is selected by the
two-character prefix and the line-number counters advance accordingly. -/
def diffLoop : Nat → Nat → List Line → List Char
  | _, _, [] => []
  | n1, n2, line :: rest =>
      let tag := line.take 2
      let content := line.drop 2
      if tag = [' ', ' '] then
        unchangedRowHtml n1 n2 content ++ diffLoop (n1 + 1) (n2 + 1) rest
      else if tag = ['-', ' '] then
        removedRowHtml n1 content ++ diffLoop (n1 + 1) n2 rest
      else if tag = ['+', ' '] then
        addedRowHtml n2 content ++ diffLoop n1 (n2 + 1) rest
      else diffLoop n1 n2 rest

/-- FileComparisonTool.generate_diff_html. -/
def generateDiffHtml (file1Data file2Data : List Char) : List Char :=
  htmlHeader ++
  diffLoop 1 1 (compareLines (splitlines file1Data) (splitlines file2Data)) ++
  htmlFooter

/-! ## Rows of the rendered table

`Row` is the structured content of one emitted <tr>: an unchanged row carries
both line numbers and the (identical) cell text, a removed row populates only
the left side, an added row only the right side.  `numberRows` mirrors the
rendering loop; `diffLoop` is exactly its row-wise HTML (proved below). -/

/-- One emitted table row. -/
inductive Row where
  | unchanged (n1 n2 : Nat) (content : Line)
  | removed (n1 : Nat) (content : Line)
  | added (n2 : Nat) (content : Line)
deriving DecidableEq, Repr

/-- The rows emitted by the rendering loop for a tagged-line stream. -/
def numberRows : Nat → Nat → List Line → List Row
  | _, _, [] => []
  | n1, n2, line :: rest =>
      let tag := line.take 2
      let content := line.drop 2
      if tag = [' ', ' '] then
        Row.unchanged n1 n2 content :: numberRows (n1 + 1) (n2 + 1) rest
      else if tag = ['-', ' '] then
        Row.removed n1 content :: numberRows (n1 + 1) n2 rest
      else if tag = ['+', ' '] then
        Row.added n2 content :: numberRows n1 (n2 + 1) rest
      else numberRows n1 n2 rest

/-- The rows of the table generate_diff_html produces. -/
def diffRows (file1Data file2Data : List Char) : List Row :=
  numberRows 1 1 (compareLines (splitlines file1Data) (splitlines file2Data))

/-- The HTML of one row. -/
def rowHtml : Row → List Char
  | Row.unchanged n1 n2 c => unchangedRowHtml n1 n2 c
  | Row.removed n1 c => removedRowHtml n1 c
  | Row.added n2 c => addedRowHtml n2 c

/-- Left cell text of a row, when the left side is populated. -/
def leftCell : Row → Option Line
  | Row.unchanged _ _ c => some c
  | Row.removed _ c => some c
  | Row.added _ _ => none

/-- Right cell text of a row, when the right side is populated. -/
def rightCell : Row → Option Line
  | Row.unchanged _ _ c => some c
  | Row.added _ c => some c
  | Row.removed _ _ => none

/-- Cell text of an unchanged (both-sided) row. -/
def equalCell : Row → Option Line
  | Row.unchanged _ _ c => some c
  | _ => none

/-! ## FileComparisonTool.load_file_content (src/disbin.py lines 35-53)

The uploaded file is its raw byte buffer (`List Nat`, file.getvalue()).  The
size check compares len/(1024*1024) with 10 in floats; division by the power
of two 2^20 is exact in IEEE doubles, so the comparison is exactly
len > 10*1024*1024.  Decoding is strict CPython UTF-8: overlong encodings,
surrogates and values above U+10FFFF are rejected. -/

/-- UTF-8 continuation byte test. -/
def utf8Cont (x : Nat) : Bool := 0x80 ≤ x && x < 0xC0

/-- Strict UTF-8 decoding of a byte list into Unicode scalar values, as
bytes.decode("utf-8") accepts them; None on any invalid sequence. -/
def utf8Decode : List Nat → Option (List Char)
  | [] => some []
  | x :: rest =>
      if x < 0x80 then
        (utf8Decode rest).map (fun cs => Char.ofNat x :: cs)
      else if x < 0xC2 then none
      else if x < 0xE0 then
        match rest with
        | y :: rest2 =>
            if utf8Cont y then
              (utf8Decode rest2).map (fun cs => Char.ofNat ((x - 0xC0) * 64 + (y - 0x80)) :: cs)
            else none
        | _ => none
      else if x < 0xF0 then
        match rest with
        | y :: z :: rest2 =>
            if (if x = 0xE0 then 0xA0 else 0x80) ≤ y && y < (if x = 0xED then 0xA0 else 0xC0)
                && utf8Cont z then
              (utf8Decode rest2).map (fun cs =>
                Char.ofNat ((x - 0xE0) * 4096 + (y - 0x80) * 64 + (z - 0x80)) :: cs)
            else none
        | _ => none
      else if x < 0xF5 then
        match rest with
        | y :: z :: w :: rest3 =>
            if (if x = 0xF0 then 0x90 else 0x80) ≤ y && y < (if x = 0xF4 then 0x90 else 0xC0)
                && utf8Cont z && utf8Cont w then
              (utf8Decode rest3).map (fun cs =>
                Char.ofNat ((x - 0xF0) * 262144 + (y - 0x80) * 4096 + (z - 0x80) * 64 + (w - 0x80)) :: cs)
            else none
        | _ => none
      else none

/-- The error message of the size-limit branch (line 45, with
MAX_FILE_SIZE_MB = 10 interpolated). -/
def sizeErrorMsg : List Char := "File size exceeds 10MB limit".data

/-- The error message of the UnicodeDecodeError branch (line 50). -/
def decodeErrorMsg : List Char :=
  "File appears to be binary or contains invalid characters".data

/-- FileComparisonTool.load_file_content: (content, error_message). -/
def loadFileContent (file : List Nat) : Option (List Char) × Option (List Char) :=
  if 10 * 1024 * 1024 < file.length then (none, some sizeErrorMsg)
  else
    match utf8Decode file with
    | some content => (some content, none)
    | none => (none, some decodeErrorMsg)

/-- The upload flow of main (src/disbin.py lines 248-273): load both files;
on any error no diff is generated, otherwise the diff HTML of the decoded
contents. -/
def compareUploaded (file1 file2 : List Nat) : Option (List Char) :=
  let r1 := loadFileContent file1
  let r2 := loadFileContent file2
  if r1.2.isSome || r2.2.isSome then none
  else
    match r1.1, r2.1 with
    | some d1, some d2 => some (generateDiffHtml d1 d2)
    | _, _ => none

/-! ## Longest common subsequence (specification side)

The reference notion the spec states maximality against: the length of a
longest common subsequence, by the textbook recursion (with fuel for kernel
reducibility; `lcsLen` passes provably sufficient fuel). -/

/-- Fueled LCS-length recursion. -/
def lcsLenF {α : Type} [DecidableEq α] : Nat → List α → List α → Nat
  | 0, _, _ => 0
  | _ + 1, [], _ => 0
  | _ + 1, _, [] => 0
  | fuel + 1, x :: xs, y :: ys =>
      if x = y then lcsLenF fuel xs ys + 1
      else max (lcsLenF fuel xs (y :: ys)) (lcsLenF fuel (x :: xs) ys)

/-- Length of a longest common subsequence. -/
def lcsLen {α : Type} [DecidableEq α] (a b : List α) : Nat :=
  lcsLenF (a.length + b.length) a b

/-! ## Extraction of row contents from tagged lines -/

/-- The contents of the tagged lines the rendering loop places in left cells
(unchanged and removed rows). -/
def leftContents (tls : List Line) : List Line :=
  tls.filterMap (fun l =>
    if l.take 2 = [' ', ' '] || l.take 2 = ['-', ' '] then some (l.drop 2) else none)

/-- The contents of the tagged lines the rendering loop places in right cells
(unchanged and added rows). -/
def rightContents (tls : List Line) : List Line :=
  tls.filterMap (fun l =>
    if l.take 2 = [' ', ' '] || l.take 2 = ['+', ' '] then some (l.drop 2) else none)

/-! ## Basic theorems: rendering loop versus rows, and the loader -/

/-- The rendering loop emits exactly the HTML of its rows, in order. -/
theorem diffLoop_eq_rows (tls : List Line) : ∀ n1 n2 : Nat,
    diffLoop n1 n2 tls = ((numberRows n1 n2 tls).map rowHtml).flatten := by
  induction tls with
  | nil => intro n1 n2; simp [diffLoop, numberRows]
  | cons line rest ih =>
      intro n1 n2
      simp only [diffLoop, numberRows]
      by_cases h1 : line.take 2 = [' ', ' ']
      · simp [h1, rowHtml, ih]
      · by_cases h2 : line.take 2 = ['-', ' ']
        · simp [h1, h2, rowHtml, ih]
        · by_cases h3 : line.take 2 = ['+', ' ']
          · simp [h1, h2, h3, rowHtml, ih]
          · simp [h1, h2, h3, ih]

/-- generate_diff_html is the header, the HTML of its rows, and the footer. -/
theorem generateDiffHtml_eq_rows (f1 f2 : List Char) :
    generateDiffHtml f1 f2 =
      htmlHeader ++ ((diffRows f1 f2).map rowHtml).flatten ++ htmlFooter := by
  simp [generateDiffHtml, diffRows, diffLoop_eq_rows]

/-- Claim C8: generate_diff_html is deterministic — the produced string is a
function of nothing but the two arguments, so identical argument pairs give
the identical output string. -/
theorem generate_diff_html_deterministic (f1 f2 g1 g2 : List Char)
    (h1 : f1 = g1) (h2 : f2 = g2) :
    generateDiffHtml f1 f2 = generateDiffHtml g1 g2 := by
  subst h1; subst h2; rfl

/-- Witness for C8 at a concrete pair of inputs. -/
theorem generate_diff_html_deterministic_witness :
    generateDiffHtml "a\nb".data "a\nc".data = generateDiffHtml "a\nb".data "a\nc".data :=
  generate_diff_html_deterministic "a\nb".data "a\nc".data "a\nb".data "a\nc".data rfl rfl

/-- Claim C9: load_file_content always returns a pair with exactly one
component present: (content, None) on success, (None, message) on failure;
the embedding is a total function, matching the catch-all except of the
source, which converts every exception to an error return. -/
theorem load_file_content_exclusive (file : List Nat) :
    ((loadFileContent file).1 = none ∧ (loadFileContent file).2.isSome) ∨
    ((loadFileContent file).1.isSome ∧ (loadFileContent file).2 = none) := by
  unfold loadFileContent
  by_cases h : 10 * 1024 * 1024 < file.length
  · simp [h]
  · cases hd : utf8Decode file with
    | none => simp [h, hd]
    | some c => simp [h, hd]

/-- Claim C5: a file larger than the 10 MB limit is rejected with the size
message independently of its content — the decode step is never consulted —
and the upload flow generates no diff when either file is oversized. -/
theorem load_file_content_size_limit (file other : List Nat)
    (h : 10 * 1024 * 1024 < file.length) :
    loadFileContent file = (none, some sizeErrorMsg) ∧
    compareUploaded file other = none ∧
    compareUploaded other file = none := by
  have hl : loadFileContent file = (none, some sizeErrorMsg) := by
    unfold loadFileContent; simp [h]
  refine ⟨hl, ?_, ?_⟩
  · unfold compareUploaded
    simp [hl]
  · unfold compareUploaded
    simp [hl]

/-- Witness for C5: a 10485761-byte file (one byte over the limit). -/
theorem load_file_content_size_limit_witness :
    loadFileContent (List.replicate 10485761 0) = (none, some sizeErrorMsg) ∧
    compareUploaded (List.replicate 10485761 0) [] = none ∧
    compareUploaded [] (List.replicate 10485761 0) = none :=
  load_file_content_size_limit (List.replicate 10485761 0) []
    (by rw [List.length_replicate]; norm_num)

/-- Claim C4: a file whose bytes are not valid UTF-8 yields no content — the
result is (None, message) — and the upload flow generates no diff rows when
either file fails to decode: the error is reported before any alignment. -/
theorem load_file_content_decode_error (file other : List Nat)
    (h : utf8Decode file = none) :
    (loadFileContent file).1 = none ∧ (loadFileContent file).2.isSome ∧
    compareUploaded file other = none ∧
    compareUploaded other file = none := by
  have hl : loadFileContent file = (none, some sizeErrorMsg) ∨
      loadFileContent file = (none, some decodeErrorMsg) := by
    unfold loadFileContent
    by_cases hs : 10 * 1024 * 1024 < file.length
    · exact Or.inl (by simp [hs])
    · exact Or.inr (by simp [hs, h])
  rcases hl with hl | hl <;>
    refine ⟨by simp [hl], by simp [hl], ?_, ?_⟩ <;>
      · unfold compareUploaded
        simp [hl]

/-- Witness for C4: the single byte 0xFF is not valid UTF-8. -/
theorem load_file_content_decode_error_witness :
    (loadFileContent [255]).1 = none ∧ (loadFileContent [255]).2.isSome ∧
    compareUploaded [255] [] = none ∧ compareUploaded [] [255] = none :=
  load_file_content_decode_error [255] [] (by decide)

/-! ## Slices and matching blocks: specification predicates -/

section Matcher

variable {α : Type} [DecidableEq α]

/-- The k elements of a starting at i equal those of b starting at j (and all
those positions exist). -/
def sliceEq (a b : List α) (i j k : Nat) : Prop :=
  ∀ t, t < k → ∃ v, a.get? (i + t) = some v ∧ b.get? (j + t) = some v

theorem sliceEq_zero (a b : List α) (i j : Nat) : sliceEq a b i j 0 := by
  intro t ht; omega

theorem sliceEq_single {a b : List α} {i j : Nat} {v : α}
    (ha : a.get? i = some v) (hb : b.get? j = some v) : sliceEq a b i j 1 := by
  intro t ht
  have : t = 0 := by omega
  subst this
  exact ⟨v, by simpa using ha, by simpa using hb⟩

theorem sliceEq_concat {a b : List α} {i j k1 k2 : Nat}
    (h1 : sliceEq a b i j k1) (h2 : sliceEq a b (i + k1) (j + k1) k2) :
    sliceEq a b i j (k1 + k2) := by
  intro t ht
  by_cases hlt : t < k1
  · exact h1 t hlt
  · obtain ⟨v, hv1, hv2⟩ := h2 (t - k1) (by omega)
    refine ⟨v, ?_, ?_⟩
    · have : i + k1 + (t - k1) = i + t := by omega
      rwa [this] at hv1
    · have : j + k1 + (t - k1) = j + t := by omega
      rwa [this] at hv2

theorem sliceEq_snoc {a b : List α} {i j k : Nat}
    (h : sliceEq a b i j k) {v : α}
    (ha : a.get? (i + k) = some v) (hb : b.get? (j + k) = some v) :
    sliceEq a b i j (k + 1) :=
  sliceEq_concat h (sliceEq_single ha hb)

theorem sliceEq_cons {a b : List α} {i j k : Nat} {v : α}
    (ha : a.get? i = some v) (hb : b.get? j = some v)
    (h : sliceEq a b (i + 1) (j + 1) k) : sliceEq a b i j (k + 1) := by
  have h2 := sliceEq_concat (sliceEq_single ha hb) h
  rw [Nat.add_comm 1 k] at h2
  simpa using h2

theorem sliceEq_bounds {a b : List α} {i j k : Nat} (h : sliceEq a b i j k)
    (hk : k ≠ 0) : i + k ≤ a.length ∧ j + k ≤ b.length := by
  obtain ⟨v, hv1, hv2⟩ := h (k - 1) (by omega)
  have h1 : i + (k - 1) < a.length := List.get?_eq_some.mp hv1 |>.1
  have h2 : j + (k - 1) < b.length := List.get?_eq_some.mp hv2 |>.1
  omega

theorem sub_get? (a : List α) (lo hi t : Nat) :
    (sub a lo hi).get? t = if t < hi - lo then a.get? (lo + t) else none := by
  unfold sub
  by_cases h : t < hi - lo
  · rw [List.get?_take h, List.get?_drop, if_pos h]
  · rw [if_neg h, List.get?_eq_none]
    calc (List.take (hi - lo) (List.drop lo a)).length ≤ hi - lo := by
          simpa using List.length_take_le (hi - lo) (List.drop lo a)
      _ ≤ t := by omega

theorem sub_eq_of_sliceEq {a b : List α} {i j k : Nat} (h : sliceEq a b i j k) :
    sub a i (i + k) = sub b j (j + k) := by
  apply List.ext
  intro t
  rw [sub_get?, sub_get?]
  by_cases ht : t < k
  · rw [if_pos (by omega), if_pos (by omega)]
    obtain ⟨v, hv1, hv2⟩ := h t ht
    rw [hv1, hv2]
  · rw [if_neg (by omega), if_neg (by omega)]

theorem sub_concat (a : List α) {lo mid hi : Nat} (h1 : lo ≤ mid) (h2 : mid ≤ hi) :
    sub a lo mid ++ sub a mid hi = sub a lo hi := by
  unfold sub
  have hsum : hi - lo = (mid - lo) + (hi - mid) := by omega
  rw [hsum, List.take_add, List.drop_drop]
  have h3 : mid - lo + lo = mid := by omega
  have h4 : lo + (mid - lo) = mid := by omega
  first
  | rw [h3]
  | rw [h4]

theorem sub_singleton {a : List α} {lo : Nat} {v : α} (h : a.get? lo = some v) :
    sub a lo (lo + 1) = [v] := by
  apply List.ext
  intro t
  rw [sub_get?]
  match t with
  | 0 => simpa using h
  | t + 1 => simp

theorem sub_split {a : List α} {lo m hi : Nat} {v : α}
    (h1 : lo ≤ m) (h2 : m < hi) (hv : a.get? m = some v) :
    sub a lo hi = sub a lo m ++ ([v] ++ sub a (m + 1) hi) := by
  rw [← sub_concat a h1 (le_of_lt h2), ← sub_concat a (by omega : m ≤ m + 1) (by omega : m + 1 ≤ hi),
    sub_singleton hv]

theorem sub_all (a : List α) : sub a 0 a.length = a := by
  unfold sub
  simp

theorem sub_empty (a : List α) {lo hi : Nat} (h : hi ≤ lo) : sub a lo hi = [] := by
  unfold sub
  have : hi - lo = 0 := by omega
  simp [this]

/-! ### Soundness of find_longest_match

The returned triple (i, j, k) always satisfies
alo <= i, i + k <= ahi, blo <= j, j + k <= bhi and a[i:i+k] = b[j:j+k]. -/

/-- A matching block lying inside the compared ranges. -/
def validBlock (a b : List α) (alo ahi blo bhi : Nat) (m : Nat × Nat × Nat) : Prop :=
  alo ≤ m.1 ∧ m.1 + m.2.2 ≤ ahi ∧ blo ≤ m.2.1 ∧ m.2.1 + m.2.2 ≤ bhi ∧
    sliceEq a b m.1 m.2.1 m.2.2

/-- Facts about a j2len entry: a junk-free common run of length k ending at
positions (i, j) inside the ranges. -/
def runFacts (a b : List α) (alo ahi blo bhi i j k : Nat) : Prop :=
  alo + k ≤ i + 1 ∧ blo + k ≤ j + 1 ∧ i < ahi ∧ j < bhi ∧
    sliceEq a b (i + 1 - k) (j + 1 - k) k

theorem validBlock_mk {a b : List α} {alo ahi blo bhi i j k : Nat}
    (h1 : alo ≤ i) (h2 : i + k ≤ ahi) (h3 : blo ≤ j) (h4 : j + k ≤ bhi)
    (h5 : sliceEq a b i j k) : validBlock a b alo ahi blo bhi (i, j, k) :=
  ⟨h1, h2, h3, h4, h5⟩

theorem validBlock_elim {a b : List α} {alo ahi blo bhi i j k : Nat}
    (h : validBlock a b alo ahi blo bhi (i, j, k)) :
    alo ≤ i ∧ i + k ≤ ahi ∧ blo ≤ j ∧ j + k ≤ bhi ∧ sliceEq a b i j k := h

theorem runFacts_validBlock {a b : List α} {alo ahi blo bhi i j k : Nat}
    (h : runFacts a b alo ahi blo bhi i j k) :
    validBlock a b alo ahi blo bhi (i + 1 - k, j + 1 - k, k) := by
  obtain ⟨h1, h2, h3, h4, h5⟩ := h
  exact validBlock_mk (by omega) (by omega) (by omega) (by omega) h5

theorem extendLo_valid {a b : List α} {cond : α → Bool} {alo blo ahi bhi : Nat} :
    ∀ (fuel : Nat) (st : Nat × Nat × Nat),
      validBlock a b alo ahi blo bhi st →
      validBlock a b alo ahi blo bhi (extendLo a b cond alo blo fuel st)
  | 0, st, h => h
  | fuel + 1, (besti, bestj, bestsize), h => by
      rw [extendLo]
      by_cases hg : extGuardLo a b cond alo blo besti bestj
      · rw [if_pos hg]
        obtain ⟨h1, h2, h3, h4, h5⟩ := validBlock_elim h
        unfold extGuardLo at hg
        simp only [Bool.and_eq_true, decide_eq_true_eq] at hg
        obtain ⟨⟨hbi, hbj⟩, hmatch⟩ := hg
        apply extendLo_valid
        rcases hget1 : a.get? (besti - 1) with _ | x
        · rw [hget1] at hmatch; cases hmatch
        rcases hget2 : b.get? (bestj - 1) with _ | y
        · rw [hget1, hget2] at hmatch; cases hmatch
        rw [hget1, hget2] at hmatch
        simp only [Bool.and_eq_true, decide_eq_true_eq] at hmatch
        obtain ⟨-, hxy⟩ := hmatch
        subst hxy
        have hs : sliceEq a b (besti - 1) (bestj - 1) (bestsize + 1) := by
          apply sliceEq_cons hget1 hget2
          have e1 : besti - 1 + 1 = besti := by omega
          have e2 : bestj - 1 + 1 = bestj := by omega
          rw [e1, e2]
          exact h5
        exact validBlock_mk (by omega) (by omega) (by omega) (by omega) hs
      · rw [if_neg hg]; exact h

theorem extendHi_valid {a b : List α} {cond : α → Bool} {alo blo ahi bhi : Nat} :
    ∀ (fuel : Nat) (st : Nat × Nat × Nat),
      validBlock a b alo ahi blo bhi st →
      validBlock a b alo ahi blo bhi (extendHi a b cond ahi bhi fuel st)
  | 0, st, h => h
  | fuel + 1, (besti, bestj, bestsize), h => by
      rw [extendHi]
      by_cases hg : extGuardHi a b cond ahi bhi besti bestj bestsize
      · rw [if_pos hg]
        obtain ⟨h1, h2, h3, h4, h5⟩ := validBlock_elim h
        unfold extGuardHi at hg
        simp only [Bool.and_eq_true, decide_eq_true_eq] at hg
        obtain ⟨⟨hbi, hbj⟩, hmatch⟩ := hg
        apply extendHi_valid
        rcases hget1 : a.get? (besti + bestsize) with _ | x
        · rw [hget1] at hmatch; cases hmatch
        rcases hget2 : b.get? (bestj + bestsize) with _ | y
        · rw [hget1, hget2] at hmatch; cases hmatch
        rw [hget1, hget2] at hmatch
        simp only [Bool.and_eq_true, decide_eq_true_eq] at hmatch
        obtain ⟨-, hxy⟩ := hmatch
        subst hxy
        exact validBlock_mk (by omega) (by omega) (by omega) (by omega)
          (sliceEq_snoc h5 hget1 hget2)
      · rw [if_neg hg]; exact h

theorem dpInner_runFacts {a b : List α} {alo ahi blo bhi : Nat} {i j : Nat}
    {old : Nat → Nat} {e : α}
    (hold : ∀ x, 0 < old x → 0 < i ∧ runFacts a b alo ahi blo bhi (i - 1) x (old x))
    (hae : a.get? i = some e) (hbe : b.get? j = some e)
    (halo : alo ≤ i) (hahi : i < ahi) (hblo : blo ≤ j) (hbhi : j < bhi) :
    runFacts a b alo ahi blo bhi i j ((if j = 0 then 0 else old (j - 1)) + 1) := by
  by_cases hj0 : j = 0
  · subst hj0
    rw [if_pos rfl]
    refine ⟨by omega, by omega, hahi, hbhi, ?_⟩
    have e1 : i + 1 - (0 + 1) = i := by omega
    have e2 : 0 + 1 - (0 + 1) = 0 := by omega
    rw [e1, e2]
    exact sliceEq_single hae hbe
  · rw [if_neg hj0]
    by_cases h0 : old (j - 1) = 0
    · rw [h0]
      refine ⟨by omega, by omega, hahi, hbhi, ?_⟩
      have e1 : i + 1 - (0 + 1) = i := by omega
      have e2 : j + 1 - (0 + 1) = j := by omega
      rw [e1, e2]
      exact sliceEq_single hae hbe
    · obtain ⟨hip, hrf⟩ := hold (j - 1) (Nat.pos_of_ne_zero h0)
      obtain ⟨r1, r2, r3, r4, r5⟩ := hrf
      refine ⟨by omega, by omega, hahi, hbhi, ?_⟩
      have e1 : i + 1 - (old (j - 1) + 1) = i - 1 + 1 - old (j - 1) := by omega
      have e2 : j + 1 - (old (j - 1) + 1) = j - 1 + 1 - old (j - 1) := by omega
      rw [e1, e2]
      apply sliceEq_snoc r5
      · have e3 : i - 1 + 1 - old (j - 1) + old (j - 1) = i := by omega
        rw [e3]; exact hae
      · have e4 : j - 1 + 1 - old (j - 1) + old (j - 1) = j := by omega
        rw [e4]; exact hbe

theorem dpInner_fold {a b : List α} {alo ahi blo bhi : Nat} (i : Nat)
    (old : Nat → Nat)
    (hold : ∀ x, 0 < old x → 0 < i ∧ runFacts a b alo ahi blo bhi (i - 1) x (old x))
    (halo : alo ≤ i) (hahi : i < ahi) :
    ∀ (js : List Nat) (st : (Nat → Nat) × Nat × Nat × Nat),
      (∀ j ∈ js, blo ≤ j ∧ j < bhi ∧ ∃ e, a.get? i = some e ∧ b.get? j = some e) →
      validBlock a b alo ahi blo bhi (st.2.1, st.2.2.1, st.2.2.2) →
      (∀ x, 0 < st.1 x → runFacts a b alo ahi blo bhi i x (st.1 x)) →
      validBlock a b alo ahi blo bhi
        (((js.foldl (dpInner i old) st).2.1, (js.foldl (dpInner i old) st).2.2.1,
          (js.foldl (dpInner i old) st).2.2.2)) ∧
      (∀ x, 0 < (js.foldl (dpInner i old) st).1 x →
        runFacts a b alo ahi blo bhi i x ((js.foldl (dpInner i old) st).1 x))
  | [], st, _, hv, hr => ⟨hv, hr⟩
  | j :: js, (nj, bi, bj, bs), hjs, hv, hr => by
      rw [List.foldl_cons]
      obtain ⟨hblo, hbhi2, e, hae, hbe⟩ := hjs j (List.mem_cons_self j js)
      have hjs2 := fun x hx => hjs x (List.mem_cons_of_mem j hx)
      have hkrun := dpInner_runFacts hold hae hbe halo hahi hblo hbhi2
      by_cases hbs : bs < (if j = 0 then 0 else old (j - 1)) + 1
      · have hstep : dpInner i old (nj, bi, bj, bs) j =
            ((fun x => if x = j then (if j = 0 then 0 else old (j - 1)) + 1 else nj x),
             i + 1 - ((if j = 0 then 0 else old (j - 1)) + 1),
             j + 1 - ((if j = 0 then 0 else old (j - 1)) + 1),
             (if j = 0 then 0 else old (j - 1)) + 1) := by
          simp only [dpInner]
          rw [if_pos hbs]
        rw [hstep]
        apply dpInner_fold i old hold halo hahi js _ hjs2
        · exact runFacts_validBlock hkrun
        · intro x hx
          replace hx : 0 < (if x = j then (if j = 0 then 0 else old (j - 1)) + 1 else nj x) := hx
          show runFacts a b alo ahi blo bhi i x
            (if x = j then (if j = 0 then 0 else old (j - 1)) + 1 else nj x)
          by_cases hxj : x = j
          · subst hxj
            rw [if_pos rfl]
            exact hkrun
          · rw [if_neg hxj] at hx ⊢
            exact hr x hx
      · have hstep : dpInner i old (nj, bi, bj, bs) j =
            ((fun x => if x = j then (if j = 0 then 0 else old (j - 1)) + 1 else nj x),
             bi, bj, bs) := by
          simp only [dpInner]
          rw [if_neg hbs]
        rw [hstep]
        apply dpInner_fold i old hold halo hahi js _ hjs2
        · exact hv
        · intro x hx
          replace hx : 0 < (if x = j then (if j = 0 then 0 else old (j - 1)) + 1 else nj x) := hx
          show runFacts a b alo ahi blo bhi i x
            (if x = j then (if j = 0 then 0 else old (j - 1)) + 1 else nj x)
          by_cases hxj : x = j
          · subst hxj
            rw [if_pos rfl]
            exact hkrun
          · rw [if_neg hxj] at hx ⊢
            exact hr x hx

theorem posList_mem {b : List α} {e : α} {j : Nat} (h : j ∈ posList b e) :
    b.get? j = some e := by
  unfold posList at h
  simp only [List.mem_filter, decide_eq_true_eq] at h
  exact h.2

theorem b2j_mem {isjunk : α → Bool} {autojunk : Bool} {b : List α} {e : α}
    {j : Nat} (h : j ∈ b2j isjunk autojunk b e) : b.get? j = some e := by
  unfold b2j at h
  by_cases h1 : isjunk e
  · rw [if_pos h1] at h; cases h
  · rw [if_neg h1] at h
    by_cases h2 : autojunk && decide (200 ≤ b.length) &&
        decide (b.length / 100 + 1 < (posList b e).length)
    · simp only [h2, if_pos] at h; cases h
    · simp only [h2, if_neg, Bool.false_eq_true, not_false_eq_true] at h
      exact posList_mem h

theorem dpOuter_spec {a b : List α} {b2jf : α → List Nat}
    (hb2j : ∀ e x, x ∈ b2jf e → b.get? x = some e)
    {alo ahi blo bhi : Nat} (i : Nat) (halo : alo ≤ i) (hahi : i < ahi)
    (st : DPState)
    (hv : validBlock a b alo ahi blo bhi (st.besti, st.bestj, st.bestsize))
    (hr : ∀ x, 0 < st.j2len x →
      0 < i ∧ runFacts a b alo ahi blo bhi (i - 1) x (st.j2len x)) :
    validBlock a b alo ahi blo bhi
      ((dpOuter a b2jf blo bhi st i).besti, (dpOuter a b2jf blo bhi st i).bestj,
        (dpOuter a b2jf blo bhi st i).bestsize) ∧
    (∀ x, 0 < (dpOuter a b2jf blo bhi st i).j2len x →
      runFacts a b alo ahi blo bhi i x ((dpOuter a b2jf blo bhi st i).j2len x)) := by
  unfold dpOuter
  rcases hget : a.get? i with _ | e
  · simp only
    constructor
    · exact hv
    · intro x hx
      simp only [List.foldl_nil] at hx
      exact absurd hx (by omega)
  · simp only
    have hjs : ∀ j ∈ (b2jf e).filter (fun j => decide (blo ≤ j) && decide (j < bhi)),
        blo ≤ j ∧ j < bhi ∧ ∃ v, a.get? i = some v ∧ b.get? j = some v := by
      intro j hj
      simp only [List.mem_filter, Bool.and_eq_true, decide_eq_true_eq] at hj
      exact ⟨hj.2.1, hj.2.2, e, hget, hb2j e j hj.1⟩
    have := dpInner_fold i st.j2len hr halo hahi
      ((b2jf e).filter (fun j => decide (blo ≤ j) && decide (j < bhi)))
      ((fun _ => 0), st.besti, st.bestj, st.bestsize) hjs hv
      (by intro x hx
          replace hx : (0 : Nat) < 0 := hx
          exact absurd hx (by omega))
    exact this

theorem dpLoop_spec {a b : List α} {b2jf : α → List Nat}
    (hb2j : ∀ e x, x ∈ b2jf e → b.get? x = some e)
    {alo ahi blo bhi : Nat} :
    ∀ (n s : Nat) (st : DPState), alo ≤ s → s + n ≤ ahi →
      validBlock a b alo ahi blo bhi (st.besti, st.bestj, st.bestsize) →
      (∀ x, 0 < st.j2len x →
        0 < s ∧ runFacts a b alo ahi blo bhi (s - 1) x (st.j2len x)) →
      validBlock a b alo ahi blo bhi
        (((List.range' s n).foldl (dpOuter a b2jf blo bhi) st).besti,
         ((List.range' s n).foldl (dpOuter a b2jf blo bhi) st).bestj,
         ((List.range' s n).foldl (dpOuter a b2jf blo bhi) st).bestsize)
  | 0, s, st, _, _, hv, _ => hv
  | n + 1, s, st, hs, hn, hv, hr => by
      have hrange : List.range' s (n + 1) = s :: List.range' (s + 1) n := by
        simp [List.range'_succ]
      rw [hrange, List.foldl_cons]
      have hstep := dpOuter_spec hb2j s hs (by omega) st hv hr
      apply dpLoop_spec hb2j n (s + 1) _ (by omega) (by omega) hstep.1
      intro x hx
      refine ⟨by omega, ?_⟩
      have e1 : s + 1 - 1 = s := by omega
      rw [e1]
      exact hstep.2 x hx

theorem dpPhase_valid {a b : List α} {b2jf : α → List Nat}
    (hb2j : ∀ e x, x ∈ b2jf e → b.get? x = some e)
    {alo ahi blo bhi : Nat} (h1 : alo ≤ ahi) (h2 : blo ≤ bhi) :
    validBlock a b alo ahi blo bhi
      ((dpPhase a b2jf alo ahi blo bhi).besti, (dpPhase a b2jf alo ahi blo bhi).bestj,
        (dpPhase a b2jf alo ahi blo bhi).bestsize) := by
  unfold dpPhase
  refine dpLoop_spec hb2j (ahi - alo) alo ⟨alo, blo, 0, fun _ => 0⟩ (le_refl alo)
    ?_ ?_ ?_
  · omega
  · show validBlock a b alo ahi blo bhi (alo, blo, 0)
    exact validBlock_mk (le_refl alo) (by omega) (le_refl blo) (by omega)
      (sliceEq_zero a b alo blo)
  · intro x hx
    replace hx : (0 : Nat) < 0 := hx
    exact absurd hx (by omega)

/-- Soundness of find_longest_match: the returned block lies inside the
ranges and its two slices are equal. -/
theorem findLongestMatch_valid (isjunk : α → Bool) (autojunk : Bool)
    (a b : List α) (alo ahi blo bhi : Nat) (h1 : alo ≤ ahi) (h2 : blo ≤ bhi) :
    validBlock a b alo ahi blo bhi (findLongestMatch isjunk autojunk a b alo ahi blo bhi) := by
  have hb2j : ∀ e x, x ∈ b2j isjunk autojunk b e → b.get? x = some e :=
    fun e x hx => b2j_mem hx
  have hdp : validBlock a b alo ahi blo bhi
      ((dpPhase a (b2j isjunk autojunk b) alo ahi blo bhi).besti,
       (dpPhase a (b2j isjunk autojunk b) alo ahi blo bhi).bestj,
       (dpPhase a (b2j isjunk autojunk b) alo ahi blo bhi).bestsize) :=
    dpPhase_valid hb2j h1 h2
  unfold findLongestMatch
  exact extendHi_valid _ _ (extendLo_valid _ _ (extendHi_valid _ _ (extendLo_valid _ _ hdp)))

/-! ### The matching blocks: ordered, in range, with equal slices -/

/-- The blocks are ordered and contiguous-or-gapped inside the ranges
[lo, hi) / [lo2, hi2), each block matching equal slices; after a block the
remaining blocks start at or after its end. -/
def confined (a b : List α) : List (Nat × Nat × Nat) → Nat → Nat → Nat → Nat → Prop
  | [], _, _, _, _ => True
  | (bi, bj, k) :: rest, lo, hi, lo2, hi2 =>
      lo ≤ bi ∧ bi + k ≤ hi ∧ lo2 ≤ bj ∧ bj + k ≤ hi2 ∧ sliceEq a b bi bj k ∧
      confined a b rest (bi + k) hi (bj + k) hi2

theorem confined_mono_lo {a b : List α} {bs : List (Nat × Nat × Nat)}
    {lo hi lo2 hi2 lo' lo2' : Nat} (h1 : lo' ≤ lo) (h2 : lo2' ≤ lo2)
    (h : confined a b bs lo hi lo2 hi2) : confined a b bs lo' hi lo2' hi2 := by
  cases bs with
  | nil => trivial
  | cons x rest =>
      obtain ⟨bi, bj, k⟩ := x
      obtain ⟨c1, c2, c3, c4, c5, c6⟩ := h
      exact ⟨by omega, c2, by omega, c4, c5, c6⟩

theorem confined_append {a b : List α} :
    ∀ {bs1 bs2 : List (Nat × Nat × Nat)} {lo mid hi lo2 mid2 hi2 : Nat},
      confined a b bs1 lo mid lo2 mid2 → confined a b bs2 mid hi mid2 hi2 →
      lo ≤ mid → lo2 ≤ mid2 → mid ≤ hi → mid2 ≤ hi2 →
      confined a b (bs1 ++ bs2) lo hi lo2 hi2
  | [], bs2, lo, mid, hi, lo2, mid2, hi2, _, h2, hl, hl2, _, _ => by
      simpa using confined_mono_lo hl hl2 h2
  | (bi, bj, k) :: rest, bs2, lo, mid, hi, lo2, mid2, hi2, h1, h2, hl, hl2, hm, hm2 => by
      obtain ⟨c1, c2, c3, c4, c5, c6⟩ := h1
      exact ⟨c1, by omega, c3, by omega, c5,
        confined_append c6 h2 (by omega) (by omega) hm hm2⟩

theorem matchingBlocksRec_confined (isjunk : α → Bool) (autojunk : Bool)
    (a b : List α) :
    ∀ (fuel alo ahi blo bhi : Nat), alo ≤ ahi → blo ≤ bhi → ahi - alo ≤ fuel →
      confined a b (matchingBlocksRec isjunk autojunk a b fuel alo ahi blo bhi)
        alo ahi blo bhi
  | 0, _, _, _, _, _, _, _ => by rw [matchingBlocksRec]; trivial
  | fuel + 1, alo, ahi, blo, bhi, h1, h2, hf => by
      rw [matchingBlocksRec]
      obtain ⟨v1, v2, v3, v4, v5⟩ :=
        findLongestMatch_valid isjunk autojunk a b alo ahi blo bhi h1 h2
      set m := findLongestMatch isjunk autojunk a b alo ahi blo bhi with hm
      by_cases hk : m.2.2 = 0
      · rw [if_pos hk]; trivial
      · rw [if_neg hk]
        have hpart1 : confined a b
            (if alo < m.1 && blo < m.2.1 then
              matchingBlocksRec isjunk autojunk a b fuel alo m.1 blo m.2.1
             else []) alo m.1 blo m.2.1 := by
          by_cases hc : alo < m.1 && blo < m.2.1
          · rw [if_pos hc]
            simp only [Bool.and_eq_true, decide_eq_true_eq] at hc
            exact matchingBlocksRec_confined isjunk autojunk a b fuel alo m.1 blo m.2.1
              (by omega) (by omega) (by omega)
          · rw [if_neg hc]; trivial
        have hpart3 : confined a b
            (if m.1 + m.2.2 < ahi && m.2.1 + m.2.2 < bhi then
              matchingBlocksRec isjunk autojunk a b fuel (m.1 + m.2.2) ahi
                (m.2.1 + m.2.2) bhi
             else []) (m.1 + m.2.2) ahi (m.2.1 + m.2.2) bhi := by
          by_cases hc : m.1 + m.2.2 < ahi && m.2.1 + m.2.2 < bhi
          · rw [if_pos hc]
            simp only [Bool.and_eq_true, decide_eq_true_eq] at hc
            exact matchingBlocksRec_confined isjunk autojunk a b fuel (m.1 + m.2.2) ahi
              (m.2.1 + m.2.2) bhi (by omega) (by omega) (by omega)
          · rw [if_neg hc]; trivial
        have hmid : confined a b ([(m.1, m.2.1, m.2.2)] ++
            (if m.1 + m.2.2 < ahi && m.2.1 + m.2.2 < bhi then
              matchingBlocksRec isjunk autojunk a b fuel (m.1 + m.2.2) ahi
                (m.2.1 + m.2.2) bhi
             else [])) m.1 ahi m.2.1 bhi := by
          exact ⟨le_refl _, v2, le_refl _, v4, v5, hpart3⟩
        have := confined_append hpart1 hmid v1 v3 (by omega) (by omega)
        simpa using this

theorem collapseBlocks_confined {a b : List α} :
    ∀ (bs : List (Nat × Nat × Nat)) (cur : Nat × Nat × Nat) (lo hi lo2 hi2 : Nat),
      confined a b (cur :: bs) lo hi lo2 hi2 →
      confined a b (collapseBlocks cur bs) lo hi lo2 hi2
  | [], (i1, j1, k1), lo, hi, lo2, hi2, h => by
      rw [collapseBlocks]
      obtain ⟨c1, c2, c3, c4, c5, -⟩ := h
      by_cases hk : k1 = 0
      · rw [if_pos hk]; trivial
      · rw [if_neg hk]
        exact ⟨c1, c2, c3, c4, c5, trivial⟩
  | (i2, j2, k2) :: rest, (i1, j1, k1), lo, hi, lo2, hi2, h => by
      rw [collapseBlocks]
      obtain ⟨c1, c2, c3, c4, c5, h6⟩ := h
      obtain ⟨d1, d2, d3, d4, d5, d6⟩ := h6
      by_cases hadj : i1 + k1 = i2 && j1 + k1 = j2
      · rw [if_pos hadj]
        simp only [Bool.and_eq_true, decide_eq_true_eq] at hadj
        apply collapseBlocks_confined rest (i1, j1, k1 + k2) lo hi lo2 hi2
        refine ⟨c1, by omega, c3, by omega, ?_, ?_⟩
        · apply sliceEq_concat c5
          rw [hadj.1, hadj.2]
          exact d5
        · have e1 : i1 + (k1 + k2) = i2 + k2 := by omega
          have e2 : j1 + (k1 + k2) = j2 + k2 := by omega
          rw [e1, e2]
          exact d6
      · rw [if_neg hadj]
        have hcoll := collapseBlocks_confined rest (i2, j2, k2) (i1 + k1) hi (j1 + k1) hi2
          ⟨d1, d2, d3, d4, d5, d6⟩
        by_cases hk : k1 = 0
        · rw [if_pos hk]
          simpa using confined_mono_lo (by omega) (by omega) hcoll
        · rw [if_neg hk]
          exact ⟨c1, c2, c3, c4, c5, hcoll⟩

theorem getMatchingBlocks_confined (isjunk : α → Bool) (autojunk : Bool)
    (a b : List α) :
    confined a b (getMatchingBlocks isjunk autojunk a b) 0 a.length 0 b.length := by
  unfold getMatchingBlocks
  have hblocks := matchingBlocksRec_confined isjunk autojunk a b a.length 0 a.length
    0 b.length (by omega) (by omega) (by omega)
  have hcoll := collapseBlocks_confined _ (0, 0, 0) 0 a.length 0 b.length
    ⟨le_refl 0, by omega, le_refl 0, by omega, sliceEq_zero a b 0 0,
     by simpa using hblocks⟩
  apply confined_append hcoll _ (by omega) (by omega) (le_refl _) (le_refl _)
  exact ⟨le_refl _, by omega, le_refl _, by omega, sliceEq_zero a b _ _, trivial⟩

end Matcher

/-! ## Reconstruction of the inputs from the tagged lines -/

theorem filterMap_eq_self_of {α β : Type} {f : α → Option β} {g : α → β} :
    ∀ {l : List α}, (∀ x ∈ l, f x = some (g x)) → l.filterMap f = l.map g
  | [], _ => rfl
  | x :: xs, h => by
      rw [List.filterMap_cons, List.map_cons, h x (List.mem_cons_self x xs),
        filterMap_eq_self_of (fun y hy => h y (List.mem_cons_of_mem x hy))]

theorem filterMap_eq_nil_of {α β : Type} {f : α → Option β} :
    ∀ {l : List α}, (∀ x ∈ l, f x = none) → l.filterMap f = []
  | [], _ => rfl
  | x :: xs, h => by
      rw [List.filterMap_cons, h x (List.mem_cons_self x xs),
        filterMap_eq_nil_of (fun y hy => h y (List.mem_cons_of_mem x hy))]

theorem take_two_tag (t1 t2 : Char) (c : Line) :
    (([t1, t2] ++ c).take 2 = [t1, t2]) ∧ (([t1, t2] ++ c).drop 2 = c) := by
  constructor <;> rfl

theorem leftContents_append (x y : List Line) :
    leftContents (x ++ y) = leftContents x ++ leftContents y := by
  unfold leftContents
  exact List.filterMap_append x y _

theorem rightContents_append (x y : List Line) :
    rightContents (x ++ y) = rightContents x ++ rightContents y := by
  unfold rightContents
  exact List.filterMap_append x y _

theorem leftContents_dump_minus (x : List Line) (lo hi : Nat) :
    leftContents (dump ['-', ' '] x lo hi) = sub x lo hi := by
  unfold leftContents dump
  rw [List.filterMap_map]
  have := @filterMap_eq_self_of Line Line
    ((fun l => if l.take 2 = [' ', ' '] || l.take 2 = ['-', ' ']
      then some (l.drop 2) else none) ∘ (fun line => ['-', ' '] ++ line))
    id (sub x lo hi) (by
      intro c hc
      simp only [Function.comp_apply, (take_two_tag '-' ' ' c).1,
        (take_two_tag '-' ' ' c).2]
      norm_num)
  rw [this, List.map_id]

theorem leftContents_dump_space (x : List Line) (lo hi : Nat) :
    leftContents (dump [' ', ' '] x lo hi) = sub x lo hi := by
  unfold leftContents dump
  rw [List.filterMap_map]
  have := @filterMap_eq_self_of Line Line
    ((fun l => if l.take 2 = [' ', ' '] || l.take 2 = ['-', ' ']
      then some (l.drop 2) else none) ∘ (fun line => [' ', ' '] ++ line))
    id (sub x lo hi) (by
      intro c hc
      simp only [Function.comp_apply, (take_two_tag ' ' ' ' c).1,
        (take_two_tag ' ' ' ' c).2]
      norm_num)
  rw [this, List.map_id]

theorem leftContents_dump_plus (x : List Line) (lo hi : Nat) :
    leftContents (dump ['+', ' '] x lo hi) = [] := by
  unfold leftContents dump
  rw [List.filterMap_map]
  apply filterMap_eq_nil_of
  intro c hc
  simp only [Function.comp_apply, (take_two_tag '+' ' ' c).1]
  norm_num
  intro h
  rcases h with h | h <;> exact absurd h (by decide)

theorem rightContents_dump_plus (x : List Line) (lo hi : Nat) :
    rightContents (dump ['+', ' '] x lo hi) = sub x lo hi := by
  unfold rightContents dump
  rw [List.filterMap_map]
  have := @filterMap_eq_self_of Line Line
    ((fun l => if l.take 2 = [' ', ' '] || l.take 2 = ['+', ' ']
      then some (l.drop 2) else none) ∘ (fun line => ['+', ' '] ++ line))
    id (sub x lo hi) (by
      intro c hc
      simp only [Function.comp_apply, (take_two_tag '+' ' ' c).1,
        (take_two_tag '+' ' ' c).2]
      norm_num)
  rw [this, List.map_id]

theorem rightContents_dump_space (x : List Line) (lo hi : Nat) :
    rightContents (dump [' ', ' '] x lo hi) = sub x lo hi := by
  unfold rightContents dump
  rw [List.filterMap_map]
  have := @filterMap_eq_self_of Line Line
    ((fun l => if l.take 2 = [' ', ' '] || l.take 2 = ['+', ' ']
      then some (l.drop 2) else none) ∘ (fun line => [' ', ' '] ++ line))
    id (sub x lo hi) (by
      intro c hc
      simp only [Function.comp_apply, (take_two_tag ' ' ' ' c).1,
        (take_two_tag ' ' ' ' c).2]
      norm_num)
  rw [this, List.map_id]

theorem rightContents_dump_minus (x : List Line) (lo hi : Nat) :
    rightContents (dump ['-', ' '] x lo hi) = [] := by
  unfold rightContents dump
  rw [List.filterMap_map]
  apply filterMap_eq_nil_of
  intro c hc
  simp only [Function.comp_apply, (take_two_tag '-' ' ' c).1]
  norm_num
  intro h
  rcases h with h | h <;> exact absurd h (by decide)

theorem leftContents_plainReplace (a b : List Line) (alo ahi blo bhi : Nat) :
    leftContents (plainReplace a b alo ahi blo bhi) = sub a alo ahi := by
  unfold plainReplace
  by_cases h : bhi - blo < ahi - alo
  · rw [if_pos h, leftContents_append, leftContents_dump_plus,
      leftContents_dump_minus, List.nil_append]
  · rw [if_neg h, leftContents_append, leftContents_dump_plus,
      leftContents_dump_minus, List.append_nil]

theorem rightContents_plainReplace (a b : List Line) (alo ahi blo bhi : Nat) :
    rightContents (plainReplace a b alo ahi blo bhi) = sub b blo bhi := by
  unfold plainReplace
  by_cases h : bhi - blo < ahi - alo
  · rw [if_pos h, rightContents_append, rightContents_dump_plus,
      rightContents_dump_minus, List.append_nil]
  · rw [if_neg h, rightContents_append, rightContents_dump_plus,
      rightContents_dump_minus, List.nil_append]

theorem leftContents_qformat (aline bline ta tb : Line) :
    leftContents (qformat aline bline ta tb) = [aline] := by
  unfold qformat leftContents
  by_cases h1 : (rstrip (keepOriginalWs aline ta)).isEmpty <;>
    by_cases h2 : (rstrip (keepOriginalWs bline tb)).isEmpty <;>
      simp [h1, h2, List.filterMap_cons, take_two_tag]

theorem rightContents_qformat (aline bline ta tb : Line) :
    rightContents (qformat aline bline ta tb) = [bline] := by
  unfold qformat rightContents
  by_cases h1 : (rstrip (keepOriginalWs aline ta)).isEmpty <;>
    by_cases h2 : (rstrip (keepOriginalWs bline tb)).isEmpty <;>
      simp [h1, h2, List.filterMap_cons, take_two_tag]

theorem leftContents_single_space (c : Line) :
    leftContents [[' ', ' '] ++ c] = [c] := by
  unfold leftContents
  simp [List.filterMap_cons, take_two_tag]

theorem rightContents_single_space (c : Line) :
    rightContents [[' ', ' '] ++ c] = [c] := by
  unfold rightContents
  simp [List.filterMap_cons, take_two_tag]

theorem foldl_inv {β γ : Type} (P : γ → Prop) (Q : β → Prop)
    (f : γ → β → γ) :
    ∀ (l : List β), (∀ x ∈ l, Q x) →
      (∀ st x, Q x → P st → P (f st x)) →
      ∀ init, P init → P (l.foldl f init)
  | [], _, _, init, h0 => h0
  | x :: xs, hl, hstep, init, h0 => by
      rw [List.foldl_cons]
      exact foldl_inv P Q f xs (fun y hy => hl y (List.mem_cons_of_mem x hy)) hstep
        (f init x) (hstep init x (hl x (List.mem_cons_self x xs)) h0)

theorem get?_some_of_lt {α : Type} {l : List α} {i : Nat} (h : i < l.length) :
    ∃ v, l.get? i = some v := by
  rcases hg : l.get? i with _ | v
  · rw [List.get?_eq_none] at hg; omega
  · exact ⟨v, rfl⟩

theorem lineAt_eq {a : List Line} {i : Nat} {v : Line} (h : a.get? i = some v) :
    lineAt a i = v := by
  unfold lineAt
  rw [h]

/-- In-range and equal-pair facts about the result of the fancy scan, and the
fact that a best ratio above the initial 0.74 implies a recorded best pair. -/
abbrev scanInv (a b : List Line) (alo ahi blo bhi : Nat)
    (st : Frac × Option (Nat × Nat) × Option (Nat × Nat)) : Prop :=
  (∀ p, st.2.2 = some p → (alo ≤ p.1 ∧ p.1 < ahi ∧ blo ≤ p.2 ∧ p.2 < bhi) ∧
    ∃ v, a.get? p.1 = some v ∧ b.get? p.2 = some v) ∧
  (∀ p, st.2.1 = some p → alo ≤ p.1 ∧ p.1 < ahi ∧ blo ≤ p.2 ∧ p.2 < bhi) ∧
  ((st.1 = ⟨74, 100⟩ ∧ st.2.1 = none) ∨ st.2.1.isSome)

theorem fancyScanStep_none {a b : List Line}
    {st : Frac × Option (Nat × Nat) × Option (Nat × Nat)} {p : Nat × Nat}
    (h : a.get? p.1 = none ∨ b.get? p.2 = none) :
    fancyScanStep a b st p = st := by
  unfold fancyScanStep
  rcases hga : a.get? p.1 with _ | ai
  · rfl
  rcases hgb : b.get? p.2 with _ | bj
  · rfl
  rcases h with h | h
  · rw [hga] at h; cases h
  · rw [hgb] at h; cases h

theorem fancyScanStep_some {a b : List Line}
    {st : Frac × Option (Nat × Nat) × Option (Nat × Nat)} {p : Nat × Nat}
    {ai bj : Line} (hga : a.get? p.1 = some ai) (hgb : b.get? p.2 = some bj) :
    fancyScanStep a b st p =
      (if ai = bj then
        (st.1, st.2.1, match st.2.2 with | none => some p | some q => some q)
      else
        if fracLt st.1 (realQuickRatioQ ai bj) &&
           fracLt st.1 (quickRatioQ ai bj) &&
           fracLt st.1 (ratioQ isCharacterJunk true ai bj) then
          (ratioQ isCharacterJunk true ai bj, some p, st.2.2)
        else st) := by
  unfold fancyScanStep
  rw [hga, hgb]

theorem fancyScan_spec (a b : List Line) (alo ahi blo bhi : Nat) :
    scanInv a b alo ahi blo bhi (fancyScan a b alo ahi blo bhi) := by
  unfold fancyScan
  apply foldl_inv (scanInv a b alo ahi blo bhi)
    (fun p => alo ≤ p.1 ∧ p.1 < ahi ∧ blo ≤ p.2 ∧ p.2 < bhi)
  · intro p hp
    simp only [List.mem_flatMap, List.mem_map] at hp
    obtain ⟨j, hj, i, hi, rfl⟩ := hp
    rw [List.mem_range'_1] at hj hi
    exact ⟨by omega, by omega, by omega, by omega⟩
  · intro st x hQ hP
    obtain ⟨hP1, hP2, hP3⟩ := hP
    rcases hga : a.get? x.1 with _ | ai
    · rw [fancyScanStep_none (Or.inl hga)]
      exact ⟨hP1, hP2, hP3⟩
    rcases hgb : b.get? x.2 with _ | bj
    · rw [fancyScanStep_none (Or.inr hgb)]
      exact ⟨hP1, hP2, hP3⟩
    rw [fancyScanStep_some hga hgb]
    by_cases heq : ai = bj
    · rw [if_pos heq]
      refine ⟨?_, hP2, ?_⟩
      · intro p hp
        rcases heqp : st.2.2 with _ | q
        · rw [heqp] at hp
          simp only at hp
          cases hp
          exact ⟨hQ, ai, hga, heq ▸ hgb⟩
        · rw [heqp] at hp
          simp only at hp
          cases hp
          exact hP1 _ heqp
      · exact hP3
    · rw [if_neg heq]
      by_cases hr : fracLt st.1 (realQuickRatioQ ai bj) &&
          fracLt st.1 (quickRatioQ ai bj) &&
          fracLt st.1 (ratioQ isCharacterJunk true ai bj)
      · rw [if_pos hr]
        exact ⟨hP1, fun p hp => by simp only at hp; cases hp; exact hQ, Or.inr rfl⟩
      · rw [if_neg hr]
        exact ⟨hP1, hP2, hP3⟩
  · show scanInv a b alo ahi blo bhi (⟨74, 100⟩, none, none)
    refine ⟨?_, ?_, ?_⟩
    · intro p hp
      cases hp
    · intro p hp
      cases hp
    · exact Or.inl ⟨rfl, rfl⟩

/-- The recursive case of fancy replace, with the inlined dispatch expressed
through fancy helper (definitional). -/
theorem fancyReplace_succ (a b : List Line) (fuel alo ahi blo bhi : Nat) :
    fancyReplace a b (fuel + 1) alo ahi blo bhi =
      (let scan := fancyScan a b alo ahi blo bhi
       if fracLt scan.1 ⟨75, 100⟩ then
        match scan.2.2 with
        | none => plainReplace a b alo ahi blo bhi
        | some (ei, ej) =>
            fancyHelper a b fuel alo ei blo ej ++
            [[' ', ' '] ++ lineAt a ei] ++
            fancyHelper a b fuel (ei + 1) ahi (ej + 1) bhi
       else
        match scan.2.1 with
        | none => []
        | some (bi, bj) =>
            let aelt := lineAt a bi
            let belt := lineAt b bj
            let tags := intralineTags aelt belt
            fancyHelper a b fuel alo bi blo bj ++
            qformat aelt belt tags.1 tags.2 ++
            fancyHelper a b fuel (bi + 1) ahi (bj + 1) bhi) := rfl

theorem fancyReplace_contents (a b : List Line) :
    ∀ (fuel alo ahi blo bhi : Nat), alo < ahi → blo < bhi →
      ahi ≤ a.length → bhi ≤ b.length → ahi - alo ≤ fuel →
      leftContents (fancyReplace a b fuel alo ahi blo bhi) = sub a alo ahi ∧
      rightContents (fancyReplace a b fuel alo ahi blo bhi) = sub b blo bhi
  | 0, alo, ahi, blo, bhi, h1, h2, h3, h4, h5 => by omega
  | fuel + 1, alo, ahi, blo, bhi, h1, h2, h3, h4, h5 => by
      have helper : ∀ lo hi lo2 hi2 : Nat, lo ≤ hi → lo2 ≤ hi2 →
          hi ≤ a.length → hi2 ≤ b.length → hi - lo ≤ fuel →
          leftContents (fancyHelper a b fuel lo hi lo2 hi2) = sub a lo hi ∧
          rightContents (fancyHelper a b fuel lo hi lo2 hi2) = sub b lo2 hi2 := by
        intro lo hi lo2 hi2 k1 k2 k3 k4 k5
        unfold fancyHelper
        by_cases c1 : lo < hi
        · rw [if_pos c1]
          by_cases c2 : lo2 < hi2
          · rw [if_pos c2]
            exact fancyReplace_contents a b fuel lo hi lo2 hi2 c1 c2 k3 k4 k5
          · rw [if_neg c2]
            have : lo2 = hi2 := by omega
            subst this
            rw [leftContents_dump_minus, rightContents_dump_minus, sub_empty b (le_refl lo2)]
            exact ⟨rfl, rfl⟩
        · rw [if_neg c1]
          have : lo = hi := by omega
          subst this
          by_cases c2 : lo2 < hi2
          · rw [if_pos c2, leftContents_dump_plus, rightContents_dump_plus,
              sub_empty a (le_refl lo)]
            exact ⟨rfl, rfl⟩
          · rw [if_neg c2]
            have : lo2 = hi2 := by omega
            subst this
            rw [sub_empty a (le_refl lo), sub_empty b (le_refl lo2)]
            exact ⟨rfl, rfl⟩
      rw [fancyReplace_succ]
      obtain ⟨hs1, hs2, hs3⟩ := fancyScan_spec a b alo ahi blo bhi
      by_cases hbr : fracLt (fancyScan a b alo ahi blo bhi).1 ⟨75, 100⟩
      · simp only [hbr, if_pos]
        rcases heq : (fancyScan a b alo ahi blo bhi).2.2 with _ | ⟨ei, ej⟩
        · exact ⟨leftContents_plainReplace a b alo ahi blo bhi,
            rightContents_plainReplace a b alo ahi blo bhi⟩
        · obtain ⟨⟨q1, q2, q3, q4⟩, v, hva, hvb⟩ := hs1 (ei, ej) heq
          have hbefore := helper alo ei blo ej (by omega) (by omega)
            (by omega) (by omega) (by omega)
          have hafter := helper (ei + 1) ahi (ej + 1) bhi (by omega) (by omega)
            h3 h4 (by omega)
          rw [leftContents_append, leftContents_append, rightContents_append,
            rightContents_append, hbefore.1, hbefore.2, hafter.1, hafter.2,
            lineAt_eq hva, leftContents_single_space, rightContents_single_space]
          constructor
          · rw [List.append_assoc]
            exact (sub_split q1 q2 hva).symm
          · rw [List.append_assoc]
            exact (sub_split q3 q4 hvb).symm
      · simp only [hbr, if_neg, Bool.false_eq_true, not_false_eq_true]
        rcases hbest : (fancyScan a b alo ahi blo bhi).2.1 with _ | ⟨bi, bj⟩
        · exfalso
          rcases hs3 with ⟨hfr, -⟩ | hsome
          · rw [hfr] at hbr
            exact hbr (by decide)
          · rw [hbest] at hsome
            cases hsome
        · obtain ⟨q1, q2, q3, q4⟩ := hs2 (bi, bj) hbest
          obtain ⟨va, hva⟩ := get?_some_of_lt (show bi < a.length by omega)
          obtain ⟨vb, hvb⟩ := get?_some_of_lt (show bj < b.length by omega)
          have hbefore := helper alo bi blo bj (by omega) (by omega)
            (by omega) (by omega) (by omega)
          have hafter := helper (bi + 1) ahi (bj + 1) bhi (by omega) (by omega)
            h3 h4 (by omega)
          simp only
          rw [leftContents_append, leftContents_append, rightContents_append,
            rightContents_append, hbefore.1, hbefore.2, hafter.1, hafter.2,
            leftContents_qformat, rightContents_qformat,
            lineAt_eq hva, lineAt_eq hvb]
          constructor
          · rw [List.append_assoc]
            exact (sub_split q1 q2 hva).symm
          · rw [List.append_assoc]
            exact (sub_split q3 q4 hvb).symm

/-- The tagged lines one opcode contributes in Differ.compare. -/
def opEmit (a b : List Line) (op : OpTag × Nat × Nat × Nat × Nat) : List Line :=
  match op with
  | (OpTag.replace, alo, ahi, blo, bhi) => fancyReplace a b (ahi - alo) alo ahi blo bhi
  | (OpTag.delete, alo, ahi, _, _) => dump ['-', ' '] a alo ahi
  | (OpTag.insert, _, _, blo, bhi) => dump ['+', ' '] b blo bhi
  | (OpTag.equal, alo, ahi, _, _) => dump [' ', ' '] a alo ahi

theorem compareLines_eq (a b : List Line) :
    compareLines a b = (getOpcodes noLineJunk true a b).flatMap (opEmit a b) := by
  unfold compareLines opEmit
  rfl

/-- The a-position reached after a block list. -/
def endA : Nat → List (Nat × Nat × Nat) → Nat
  | i, [] => i
  | _, (ai, _, k) :: rest => endA (ai + k) rest

/-- The b-position reached after a block list. -/
def endB : Nat → List (Nat × Nat × Nat) → Nat
  | j, [] => j
  | _, (_, bj, k) :: rest => endB (bj + k) rest

theorem end_ge {α : Type} [DecidableEq α] {a b : List α} :
    ∀ {bs : List (Nat × Nat × Nat)} {i hi j hi2 : Nat},
      confined a b bs i hi j hi2 → i ≤ endA i bs ∧ j ≤ endB j bs
  | [], i, hi, j, hi2, _ => ⟨le_refl i, le_refl j⟩
  | (ai, bj, k) :: rest, i, hi, j, hi2, h => by
      obtain ⟨c1, c2, c3, c4, c5, c6⟩ := h
      obtain ⟨d1, d2⟩ := end_ge c6
      rw [endA, endB]
      exact ⟨by omega, by omega⟩

theorem endA_last : ∀ (bs : List (Nat × Nat × Nat)) (i p q r : Nat),
    endA i (bs ++ [(p, q, r)]) = p + r
  | [], i, p, q, r => rfl
  | (ai, bj, k) :: rest, i, p, q, r => by
      rw [List.cons_append, endA]
      exact endA_last rest (ai + k) p q r

theorem endB_last : ∀ (bs : List (Nat × Nat × Nat)) (j p q r : Nat),
    endB j (bs ++ [(p, q, r)]) = q + r
  | [], j, p, q, r => rfl
  | (ai, bj, k) :: rest, j, p, q, r => by
      rw [List.cons_append, endB]
      exact endB_last rest (bj + k) p q r

theorem opcodesFrom_contents (a b : List Line) :
    ∀ (bs : List (Nat × Nat × Nat)) (i j : Nat),
      confined a b bs i a.length j b.length →
      leftContents ((opcodesFrom i j bs).flatMap (opEmit a b)) =
        sub a i (endA i bs) ∧
      rightContents ((opcodesFrom i j bs).flatMap (opEmit a b)) =
        sub b j (endB j bs)
  | [], i, j, _ => by
      rw [opcodesFrom, endA, endB]
      constructor <;> rw [List.flatMap_nil, sub_empty _ (le_refl _)] <;> rfl
  | (ai, bj, k) :: rest, i, j, h => by
      obtain ⟨c1, c2, c3, c4, c5, c6⟩ := h
      have hrest := opcodesFrom_contents a b rest (ai + k) (bj + k) c6
      obtain ⟨hE1, hE2⟩ := end_ge c6
      rw [opcodesFrom, endA, endB]
      rw [List.flatMap_append, List.flatMap_append, leftContents_append,
        leftContents_append, rightContents_append, rightContents_append,
        hrest.1, hrest.2]
      have hgap : leftContents ((if i < ai && j < bj then [(OpTag.replace, i, ai, j, bj)]
            else if i < ai then [(OpTag.delete, i, ai, j, bj)]
            else if j < bj then [(OpTag.insert, i, ai, j, bj)]
            else []).flatMap (opEmit a b)) = sub a i ai ∧
          rightContents ((if i < ai && j < bj then [(OpTag.replace, i, ai, j, bj)]
            else if i < ai then [(OpTag.delete, i, ai, j, bj)]
            else if j < bj then [(OpTag.insert, i, ai, j, bj)]
            else []).flatMap (opEmit a b)) = sub b j bj := by
        by_cases g1 : i < ai
        · by_cases g2 : j < bj
          · have hcond : (decide (i < ai) && decide (j < bj)) = true := by
              simp [g1, g2]
            rw [if_pos hcond]
            simp only [List.flatMap_cons, List.flatMap_nil, List.append_nil, opEmit]
            exact fancyReplace_contents a b (ai - i) i ai j bj g1 g2 (by omega)
              (by omega) (le_refl _)
          · have hcond : (decide (i < ai) && decide (j < bj)) = false := by
              simp [g2]
            rw [if_neg (by rw [hcond]; exact Bool.false_ne_true), if_pos g1]
            simp only [List.flatMap_cons, List.flatMap_nil, List.append_nil, opEmit]
            have hjbj : j = bj := by omega
            subst hjbj
            rw [leftContents_dump_minus, rightContents_dump_minus,
              sub_empty b (le_refl j)]
            exact ⟨rfl, rfl⟩
        · have hcond : (decide (i < ai) && decide (j < bj)) = false := by
            simp [g1]
          rw [if_neg (by rw [hcond]; exact Bool.false_ne_true), if_neg g1]
          have hiai : i = ai := by omega
          subst hiai
          by_cases g2 : j < bj
          · rw [if_pos g2]
            simp only [List.flatMap_cons, List.flatMap_nil, List.append_nil, opEmit]
            rw [leftContents_dump_plus, rightContents_dump_plus,
              sub_empty a (le_refl i)]
            exact ⟨rfl, rfl⟩
          · rw [if_neg g2]
            have hjbj : j = bj := by omega
            subst hjbj
            rw [List.flatMap_nil, sub_empty a (le_refl i), sub_empty b (le_refl j)]
            exact ⟨rfl, rfl⟩
      have heqp : leftContents ((if k = 0 then []
            else [(OpTag.equal, ai, ai + k, bj, bj + k)]).flatMap (opEmit a b)) =
          sub a ai (ai + k) ∧
          rightContents ((if k = 0 then []
            else [(OpTag.equal, ai, ai + k, bj, bj + k)]).flatMap (opEmit a b)) =
          sub b bj (bj + k) := by
        by_cases hk : k = 0
        · subst hk
          rw [if_pos rfl, List.flatMap_nil, sub_empty a (by omega),
            sub_empty b (by omega)]
          exact ⟨rfl, rfl⟩
        · rw [if_neg hk]
          simp only [List.flatMap_cons, List.flatMap_nil, List.append_nil, opEmit]
          rw [leftContents_dump_space, rightContents_dump_space]
          constructor
          · rfl
          · exact sub_eq_of_sliceEq c5
      rw [hgap.1, hgap.2, heqp.1, heqp.2]
      constructor
      · rw [sub_concat a c1 (by omega : ai ≤ ai + k),
          sub_concat a (by omega : i ≤ ai + k) (by omega : ai + k ≤ endA (ai + k) rest)]
      · rw [sub_concat b c3 (by omega : bj ≤ bj + k),
          sub_concat b (by omega : j ≤ bj + k) (by omega : bj + k ≤ endB (bj + k) rest)]

/-- Concatenating the left (respectively right) cell contents of the tagged
lines of Differ.compare gives back the first (second) line list exactly. -/
theorem compareLines_contents (a b : List Line) :
    leftContents (compareLines a b) = a ∧ rightContents (compareLines a b) = b := by
  rw [compareLines_eq]
  have hconf := getMatchingBlocks_confined noLineJunk true a b
  have h := opcodesFrom_contents a b (getMatchingBlocks noLineJunk true a b) 0 0 hconf
  unfold getOpcodes
  unfold getMatchingBlocks at h
  rw [endA_last, endB_last] at h
  rw [Nat.add_zero, Nat.add_zero] at h
  have ha := sub_all a
  have hb := sub_all b
  unfold getMatchingBlocks
  constructor
  · rw [h.1]
    unfold sub at ha ⊢
    rw [Nat.sub_zero] at ha ⊢
    exact ha
  · rw [h.2]
    unfold sub at hb ⊢
    rw [Nat.sub_zero] at hb ⊢
    exact hb

theorem numberRows_leftCell : ∀ (tls : List Line) (n1 n2 : Nat),
    (numberRows n1 n2 tls).filterMap leftCell = leftContents tls
  | [], _, _ => rfl
  | line :: rest, n1, n2 => by
      have ih1 := numberRows_leftCell rest (n1 + 1) (n2 + 1)
      have ih2 := numberRows_leftCell rest (n1 + 1) n2
      have ih3 := numberRows_leftCell rest n1 (n2 + 1)
      have ih4 := numberRows_leftCell rest n1 n2
      by_cases h1 : line.take 2 = [' ', ' ']
      · simp [numberRows, leftContents, List.filterMap_cons, h1, leftCell,
          ih1]
      · by_cases h2 : line.take 2 = ['-', ' ']
        · simp [numberRows, leftContents, List.filterMap_cons, h1, h2, leftCell,
            ih2]
        · by_cases h3 : line.take 2 = ['+', ' ']
          · simp [numberRows, leftContents, List.filterMap_cons, h1, h2, h3,
              leftCell, ih3]
          · simp [numberRows, leftContents, List.filterMap_cons, h1, h2, h3,
              leftCell, ih4]

theorem numberRows_rightCell : ∀ (tls : List Line) (n1 n2 : Nat),
    (numberRows n1 n2 tls).filterMap rightCell = rightContents tls
  | [], _, _ => rfl
  | line :: rest, n1, n2 => by
      have ih1 := numberRows_rightCell rest (n1 + 1) (n2 + 1)
      have ih2 := numberRows_rightCell rest (n1 + 1) n2
      have ih3 := numberRows_rightCell rest n1 (n2 + 1)
      have ih4 := numberRows_rightCell rest n1 n2
      have hms : ([' ', ' '] : List Char) ≠ ['+', ' '] := by decide
      have hmm : (['-', ' '] : List Char) ≠ ['+', ' '] := by decide
      by_cases h1 : line.take 2 = [' ', ' ']
      · simp [numberRows, rightContents, List.filterMap_cons, h1, rightCell,
          ih1]
      · by_cases h2 : line.take 2 = ['-', ' ']
        · simp [numberRows, rightContents, List.filterMap_cons, h1, h2, rightCell,
            ih2, hmm]
        · by_cases h3 : line.take 2 = ['+', ' ']
          · simp [numberRows, rightContents, List.filterMap_cons, h1, h2, h3,
              rightCell, ih3]
          · simp [numberRows, rightContents, List.filterMap_cons, h1, h2, h3,
              rightCell, ih4]

/-- Claim C1: concatenating in emission order the left-cell contents of the
rows whose left side is populated (unchanged and removed rows) yields exactly
file1_data.splitlines(), and the populated right-cell contents (unchanged and
added rows) yield exactly file2_data.splitlines(). -/
theorem generate_diff_html_roundtrip (file1Data file2Data : List Char) :
    (diffRows file1Data file2Data).filterMap leftCell = splitlines file1Data ∧
    (diffRows file1Data file2Data).filterMap rightCell = splitlines file2Data := by
  unfold diffRows
  rw [numberRows_leftCell, numberRows_rightCell]
  exact ⟨(compareLines_contents _ _).1, (compareLines_contents _ _).2⟩

/-! ## Claim C2: equal rows versus the longest common subsequence -/

theorem filterMap_sublist_filterMap {α β : Type} {f g : α → Option β}
    (h : ∀ x c, f x = some c → g x = some c) :
    ∀ l : List α, List.Sublist (l.filterMap f) (l.filterMap g)
  | [] => List.Sublist.refl []
  | x :: xs => by
      rw [List.filterMap_cons, List.filterMap_cons]
      rcases hf : f x with _ | c
      · rcases hg : g x with _ | d
        · exact filterMap_sublist_filterMap h xs
        · exact List.Sublist.cons d (filterMap_sublist_filterMap h xs)
      · rw [h x c hf]
        exact List.Sublist.cons₂ c (filterMap_sublist_filterMap h xs)

theorem sublist_length_le_lcsLenF {α : Type} [DecidableEq α] :
    ∀ (fuel : Nat) (a b s : List α), a.length + b.length ≤ fuel →
      List.Sublist s a → List.Sublist s b → s.length ≤ lcsLenF fuel a b
  | fuel, [], b, s, _, hsa, _ => by
      rw [List.sublist_nil.mp hsa]
      exact Nat.zero_le _
  | fuel, a :: as, [], s, _, _, hsb => by
      rw [List.sublist_nil.mp hsb]
      exact Nat.zero_le _
  | 0, x :: xs, y :: ys, s, hf, _, _ => by simp at hf
  | fuel + 1, x :: xs, y :: ys, s, hf, hsa, hsb => by
      rw [lcsLenF]
      simp only [List.length_cons] at hf
      by_cases hxy : x = y
      · rw [if_pos hxy]
        cases s with
        | nil => exact Nat.zero_le _
        | cons z zs =>
            have hzsa : List.Sublist zs xs := by
              cases hsa with
              | cons _ h => exact List.sublist_of_cons_sublist h
              | cons₂ _ h => exact h
            have hzsb : List.Sublist zs ys := by
              cases hsb with
              | cons _ h => exact List.sublist_of_cons_sublist h
              | cons₂ _ h => exact h
            have := sublist_length_le_lcsLenF fuel xs ys zs (by omega) hzsa hzsb
            simp only [List.length_cons]
            omega
      · rw [if_neg hxy]
        cases hsa with
        | cons _ h =>
            have := sublist_length_le_lcsLenF fuel xs (y :: ys) s
              (by simp only [List.length_cons]; omega) h hsb
            exact le_trans this (le_max_left _ _)
        | cons₂ _ h =>
            cases hsb with
            | cons _ h2 =>
                have := sublist_length_le_lcsLenF fuel (x :: xs) ys _
                  (by simp only [List.length_cons]; omega)
                  (List.Sublist.cons₂ x h) h2
                exact le_trans this (le_max_right _ _)
            | cons₂ _ h2 => exact absurd rfl hxy

theorem sublist_length_le_lcsLen {α : Type} [DecidableEq α] {a b s : List α}
    (hsa : List.Sublist s a) (hsb : List.Sublist s b) :
    s.length ≤ lcsLen a b :=
  sublist_length_le_lcsLenF (a.length + b.length) a b s (le_refl _) hsa hsb

/-- Counterexample to claim C2: on these five-line inputs the diff reports 2
unchanged rows while the longest common subsequence of the line lists has
length 3, so the unchanged total is not the LCS length. -/
theorem lcs_maximality_counterexample :
    ((diffRows "a
b
c
b
d".data "b
d
c
a
b".data).filterMap equalCell).length = 2 ∧
    lcsLen (splitlines "a
b
c
b
d".data) (splitlines "b
d
c
a
b".data) = 3 ∧
    ((diffRows "a
b
c
b
d".data "b
d
c
a
b".data).filterMap equalCell).length ≠
      lcsLen (splitlines "a
b
c
b
d".data) (splitlines "b
d
c
a
b".data) := by
  decide

/-- Amended claim C2: the unchanged-row contents form a common subsequence of
the two line lists — so the number of unchanged rows is at most the length of
a longest common subsequence — but difflib does not guarantee equality. -/
theorem unchanged_rows_common_subsequence (file1Data file2Data : List Char) :
    List.Sublist ((diffRows file1Data file2Data).filterMap equalCell)
      (splitlines file1Data) ∧
    List.Sublist ((diffRows file1Data file2Data).filterMap equalCell)
      (splitlines file2Data) ∧
    ((diffRows file1Data file2Data).filterMap equalCell).length ≤
      lcsLen (splitlines file1Data) (splitlines file2Data) := by
  have hrt := generate_diff_html_roundtrip file1Data file2Data
  have hleft : List.Sublist ((diffRows file1Data file2Data).filterMap equalCell)
      (splitlines file1Data) := by
    rw [← hrt.1]
    apply filterMap_sublist_filterMap
    intro r c hc
    cases r with
    | unchanged n1 n2 cc => exact hc
    | removed n1 cc => cases hc
    | added n2 cc => cases hc
  have hright : List.Sublist ((diffRows file1Data file2Data).filterMap equalCell)
      (splitlines file2Data) := by
    rw [← hrt.2]
    apply filterMap_sublist_filterMap
    intro r c hc
    cases r with
    | unchanged n1 n2 cc => exact hc
    | removed n1 cc => cases hc
    | added n2 cc => cases hc
  exact ⟨hleft, hright, sublist_length_le_lcsLen hleft hright⟩

/-! ## Claim C3: how a replace pairing is rendered -/

/-- Counterexample to claim C3: on "abcd" versus "abcx" the fancy replace
machinery pairs the two lines (ratio 0.75 > 0.74) and emits the
minus/question/plus/question quad; the renderer drops the question hint lines
and produces two separate one-sided rows — no single row with both line
numbers and styled spans exists. -/
theorem replace_pair_counterexample :
    compareLines (splitlines "abcd".data) (splitlines "abcx".data) =
      ["- abcd".data, "?    ^\n".data, "+ abcx".data, "?    ^\n".data] ∧
    diffRows "abcd".data "abcx".data =
      [Row.removed 1 "abcd".data, Row.added 1 "abcx".data] ∧
    (diffRows "abcd".data "abcx".data).all (fun r => equalCell r = none) := by
  decide

/-- Amended claim C3: when the line-level alignment pairs a removed line with
an added line as a replacement, the pair is emitted through _qformat, and the
renderer produces exactly two rows for it — a removed row carrying only the
left line number with the raw left line, then an added row carrying only the
right line number with the raw right line; the character-level "? " hint
lines contribute nothing (no merged row and no styled spans are produced). -/
theorem replace_pair_rows (n1 n2 : Nat) (aline bline ta tb : Line)
    (rest : List Line) :
    numberRows n1 n2 (qformat aline bline ta tb ++ rest) =
      Row.removed n1 aline :: Row.added n2 bline ::
        numberRows (n1 + 1) (n2 + 1) rest ∧
    diffLoop n1 n2 (qformat aline bline ta tb ++ rest) =
      removedRowHtml n1 aline ++ (addedRowHtml n2 bline ++
        diffLoop (n1 + 1) (n2 + 1) rest) := by
  unfold qformat
  have t1 := take_two_tag '-' ' ' aline
  have t2 := take_two_tag '+' ' ' bline
  by_cases h1 : (rstrip (keepOriginalWs aline ta)).isEmpty <;>
    by_cases h2 : (rstrip (keepOriginalWs bline tb)).isEmpty <;>
      simp [h1, h2, numberRows, diffLoop, t1.1, t1.2, t2.1, t2.2,
        take_two_tag '?' ' ' _]

/-! ## Claim C6: empty inputs -/

/-- The rows of a pure insertion block: added rows numbered consecutively. -/
def addedRows : Nat → List Line → List Row
  | _, [] => []
  | n, l :: rest => Row.added n l :: addedRows (n + 1) rest

/-- The rows of a pure deletion block: removed rows numbered consecutively. -/
def removedRows : Nat → List Line → List Row
  | _, [] => []
  | n, l :: rest => Row.removed n l :: removedRows (n + 1) rest

theorem numberRows_all_plus : ∀ (B : List Line) (n1 n2 : Nat),
    numberRows n1 n2 (B.map (fun l => ['+', ' '] ++ l)) = addedRows n2 B
  | [], _, _ => rfl
  | l :: rest, n1, n2 => by
      rw [List.map_cons, numberRows, addedRows]
      have t := take_two_tag '+' ' ' l
      simp only [t.1, t.2]
      rw [if_pos trivial, numberRows_all_plus rest n1 (n2 + 1),
        if_neg (by decide), if_neg (by decide)]

theorem numberRows_all_minus : ∀ (A : List Line) (n1 n2 : Nat),
    numberRows n1 n2 (A.map (fun l => ['-', ' '] ++ l)) = removedRows n1 A
  | [], _, _ => rfl
  | l :: rest, n1, n2 => by
      rw [List.map_cons, numberRows, removedRows]
      have t := take_two_tag '-' ' ' l
      simp only [t.1, t.2]
      rw [if_pos trivial, numberRows_all_minus rest (n1 + 1) n2,
        if_neg (by decide)]

theorem compareLines_nil_left (B : List Line) :
    compareLines [] B = B.map (fun l => ['+', ' '] ++ l) := by
  cases B with
  | nil => rfl
  | cons x xs =>
      rw [compareLines_eq]
      have hblocks : getMatchingBlocks noLineJunk true [] (x :: xs) =
        [(0, (x :: xs).length, 0)] := rfl
      unfold getOpcodes
      rw [hblocks, opcodesFrom]
      have hc1 : (decide ((0 : Nat) < 0) && decide (0 < (x :: xs).length)) = false := by
        simp
      rw [if_neg (by rw [hc1]; exact Bool.false_ne_true), if_neg (by omega),
        if_pos (by simp), if_pos rfl, opcodesFrom]
      simp only [List.nil_append, List.append_nil, List.flatMap_cons,
        List.flatMap_nil, List.append_nil, opEmit]
      unfold dump
      have : sub (x :: xs) 0 (x :: xs).length = x :: xs := sub_all (x :: xs)
      rw [this]

theorem b2j_nil_b {α : Type} [DecidableEq α] (isjunk : α → Bool) (autojunk : Bool)
    (e : α) : b2j isjunk autojunk ([] : List α) e = [] := by
  unfold b2j posList
  simp

theorem dpLoop_nil_b {α : Type} [DecidableEq α] (a : List α) (b2jf : α → List Nat)
    (hb2jf : ∀ e, b2jf e = []) (blo bhi : Nat) :
    ∀ (l : List Nat) (st : DPState),
      ((l.foldl (dpOuter a b2jf blo bhi) st).besti = st.besti ∧
       (l.foldl (dpOuter a b2jf blo bhi) st).bestj = st.bestj ∧
       (l.foldl (dpOuter a b2jf blo bhi) st).bestsize = st.bestsize)
  | [], st => ⟨rfl, rfl, rfl⟩
  | i :: l, st => by
      rw [List.foldl_cons]
      have hstep : dpOuter a b2jf blo bhi st i =
          ⟨st.besti, st.bestj, st.bestsize, fun _ => 0⟩ := by
        unfold dpOuter
        rcases hg : a.get? i with _ | e
        · rfl
        · simp [hb2jf]
      rw [hstep]
      exact dpLoop_nil_b a b2jf hb2jf blo bhi l _

theorem extGuard_zero_lemmas {α : Type} [DecidableEq α] (a b : List α)
    (cond : α → Bool) (alo ahi : Nat) :
    extGuardLo a b cond alo 0 0 0 = false ∧
    (∀ bs : Nat, extGuardHi a b cond ahi 0 0 0 bs = false) := by
  constructor
  · unfold extGuardLo
    simp
  · intro bs
    unfold extGuardHi
    simp

theorem extendHi_bhi_zero {α : Type} [DecidableEq α] (a b : List α)
    (cond : α → Bool) (ahi : Nat) :
    ∀ fuel : Nat, extendHi a b cond ahi 0 fuel (0, 0, 0) = (0, 0, 0)
  | 0 => rfl
  | fuel + 1 => by
      rw [extendHi, (extGuard_zero_lemmas a b cond 0 ahi).2 0]
      simp

theorem flm_from_state {α : Type} [DecidableEq α] (isjunk : α → Bool)
    (autojunk : Bool) (a b : List α) (alo ahi blo bhi : Nat) (bi bj bs : Nat)
    (h1 : (dpPhase a (b2j isjunk autojunk b) alo ahi blo bhi).besti = bi)
    (h2 : (dpPhase a (b2j isjunk autojunk b) alo ahi blo bhi).bestj = bj)
    (h3 : (dpPhase a (b2j isjunk autojunk b) alo ahi blo bhi).bestsize = bs) :
    findLongestMatch isjunk autojunk a b alo ahi blo bhi =
      extendHi a b isjunk ahi bhi ahi
        (extendLo a b isjunk alo blo
          (extendHi a b (fun e => !isjunk e) ahi bhi ahi
            (extendLo a b (fun e => !isjunk e) alo blo bi (bi, bj, bs))).1
          (extendHi a b (fun e => !isjunk e) ahi bhi ahi
            (extendLo a b (fun e => !isjunk e) alo blo bi (bi, bj, bs)))) := by
  subst h1
  subst h2
  subst h3
  rfl

theorem findLongestMatch_nil_b {α : Type} [DecidableEq α] (isjunk : α → Bool)
    (autojunk : Bool) (a : List α) (ahi : Nat) :
    findLongestMatch isjunk autojunk a [] 0 ahi 0 0 = (0, 0, 0) := by
  have hd := dpLoop_nil_b a (b2j isjunk autojunk [])
    (fun e => b2j_nil_b isjunk autojunk e) 0 0 (List.range' 0 (ahi - 0))
    ⟨0, 0, 0, fun _ => 0⟩
  obtain ⟨e1, e2, e3⟩ := hd
  rw [flm_from_state isjunk autojunk a [] 0 ahi 0 0 0 0 0 e1 e2 e3]
  rw [extendLo]
  rw [extendHi_bhi_zero]
  rw [extendLo]
  rw [extendHi_bhi_zero]

theorem matchingBlocksRec_nil_b {α : Type} [DecidableEq α] (isjunk : α → Bool)
    (autojunk : Bool) (a : List α) :
    ∀ (fuel ahi : Nat),
      matchingBlocksRec isjunk autojunk a [] fuel 0 ahi 0 0 = []
  | 0, _ => rfl
  | fuel + 1, ahi => by
      rw [matchingBlocksRec]
      simp only [findLongestMatch_nil_b isjunk autojunk a ahi]
      rfl

theorem getMatchingBlocks_nil_b (a : List Line) :
    getMatchingBlocks noLineJunk true a [] = [(a.length, 0, 0)] := by
  show collapseBlocks (0, 0, 0)
      (matchingBlocksRec noLineJunk true a [] a.length 0 a.length 0 0) ++
      [(a.length, 0, 0)] = [(a.length, 0, 0)]
  rw [matchingBlocksRec_nil_b]
  rfl

theorem compareLines_nil_right (A : List Line) :
    compareLines A [] = A.map (fun l => ['-', ' '] ++ l) := by
  cases A with
  | nil => rfl
  | cons x xs =>
      rw [compareLines_eq]
      unfold getOpcodes
      rw [getMatchingBlocks_nil_b, opcodesFrom]
      have hc1 : (decide ((0 : Nat) < (x :: xs).length) && decide ((0 : Nat) < 0)) = false := by
        simp
      rw [if_neg (by rw [hc1]; exact Bool.false_ne_true), if_pos (by simp),
        if_pos rfl, opcodesFrom]
      simp only [List.nil_append, List.append_nil, List.flatMap_cons,
        List.flatMap_nil, List.append_nil, opEmit]
      unfold dump
      have : sub (x :: xs) 0 (x :: xs).length = x :: xs := sub_all (x :: xs)
      rw [this]

/-- Claim C6: if both inputs split to empty line lists no rows are emitted;
if only the first is empty every row is an added row and together they cover
the second input's lines in order; if only the second is empty every row is a
removed row covering the first input's lines in order. -/
theorem empty_input_rows (file1Data file2Data : List Char) :
    (splitlines file1Data = [] → splitlines file2Data = [] →
      diffRows file1Data file2Data = []) ∧
    (splitlines file1Data = [] →
      diffRows file1Data file2Data = addedRows 1 (splitlines file2Data)) ∧
    (splitlines file2Data = [] →
      diffRows file1Data file2Data = removedRows 1 (splitlines file1Data)) := by
  refine ⟨?_, ?_, ?_⟩
  · intro h1 h2
    unfold diffRows
    rw [h1, h2]
    rfl
  · intro h1
    unfold diffRows
    rw [h1, compareLines_nil_left, numberRows_all_plus]
  · intro h2
    unfold diffRows
    rw [h2, compareLines_nil_right, numberRows_all_minus]

/-- Witness for C6 at concrete inputs. -/
theorem empty_input_rows_witness :
    diffRows "".data "".data = [] ∧
    diffRows "".data "x\ny".data = addedRows 1 (splitlines "x\ny".data) ∧
    diffRows "x\ny".data "".data = removedRows 1 (splitlines "x\ny".data) :=
  ⟨(empty_input_rows "".data "".data).1 rfl rfl,
   (empty_input_rows "".data "x\ny".data).2.1 rfl,
   (empty_input_rows "x\ny".data "".data).2.2 rfl⟩

/-! ## Claim C7: comparing a sequence with itself

The line-level SequenceMatcher of ndiff runs with isjunk = None, so its
bjunk set is empty and only autojunk popularity can prune b2j.  Both the
junk gate and the popularity gate of __chain_b depend on the element value
alone, so on identical inputs every cell of the DP that beats the running
best is dominated by a diagonal cell scanned no later (same row, smaller
column, or an earlier row): the recorded best block always lies on the
diagonal, and the junk-free extension loops then grow any diagonal block to
the whole range. -/

section Identity

variable {α : Type} [DecidableEq α]

/-- The cell (i, j) is live in the DP on identical sequences: j is a
surviving b2j position of the row element a[i]. -/
def memAt (a : List α) (g : α → List Nat) (i j : Nat) : Bool :=
  match a.get? i with
  | some e => decide (j ∈ g e)
  | none => false

/-- The run length the DP records at cell (i, j): the value newj2len[j]
holds after processing row i (rows 0..i, full range). -/
def runlen (a : List α) (g : α → List Nat) : Nat → Nat → Nat
  | 0, j => if memAt a g 0 j then 1 else 0
  | i + 1, 0 => if memAt a g (i + 1) 0 then 1 else 0
  | i + 1, j + 1 => if memAt a g (i + 1) (j + 1) then runlen a g i j + 1 else 0

theorem memAt_of {a : List α} {g : α → List Nat} {i j : Nat} {e : α}
    (he : a.get? i = some e) (hm : j ∈ g e) : memAt a g i j = true := by
  unfold memAt
  rw [he]
  show decide (j ∈ g e) = true
  exact decide_eq_true hm

theorem memAt_elim {a : List α} {g : α → List Nat} {i j : Nat}
    (h : memAt a g i j = true) : ∃ e, a.get? i = some e ∧ j ∈ g e := by
  unfold memAt at h
  rcases hg : a.get? i with _ | e
  · rw [hg] at h; cases h
  · rw [hg] at h
    replace h : decide (j ∈ g e) = true := h
    exact ⟨e, rfl, of_decide_eq_true h⟩

theorem runlen_zero_eq (a : List α) (g : α → List Nat) (j : Nat) :
    runlen a g 0 j = if memAt a g 0 j then 1 else 0 := by
  cases j <;> rfl

theorem runlen_succ_zero_eq (a : List α) (g : α → List Nat) (i : Nat) :
    runlen a g (i + 1) 0 = if memAt a g (i + 1) 0 then 1 else 0 := rfl

theorem runlen_succ_succ_eq (a : List α) (g : α → List Nat) (i j : Nat) :
    runlen a g (i + 1) (j + 1) =
      if memAt a g (i + 1) (j + 1) then runlen a g i j + 1 else 0 := rfl

theorem runlen_le (a : List α) (g : α → List Nat) : ∀ i j, runlen a g i j ≤ i + 1
  | 0, j => by rw [runlen_zero_eq]; split <;> omega
  | i + 1, 0 => by rw [runlen_succ_zero_eq]; split <;> omega
  | i + 1, j + 1 => by
      rw [runlen_succ_succ_eq]
      split
      · have := runlen_le a g i j; omega
      · omega

theorem runlen_eq_zero {a : List α} {g : α → List Nat} {i j : Nat}
    (h : memAt a g i j = false) : runlen a g i j = 0 := by
  have h2 : ¬ (memAt a g i j = true) := by simp [h]
  cases i with
  | zero => rw [runlen_zero_eq, if_neg h2]
  | succ i2 =>
      cases j with
      | zero => rw [runlen_succ_zero_eq, if_neg h2]
      | succ j2 => rw [runlen_succ_succ_eq, if_neg h2]

theorem memAt_diag_left {a : List α} {g : α → List Nat}
    (hpos : ∀ (j : Nat) (e : α), j ∈ g e → a.get? j = some e)
    {i j : Nat} (h : memAt a g i j = true) : memAt a g j j = true := by
  obtain ⟨e, _, hm⟩ := memAt_elim h
  exact memAt_of (hpos j e hm) hm

theorem memAt_diag_right {a : List α} {g : α → List Nat}
    (htrans : ∀ (j i : Nat) (e : α), j ∈ g e → a.get? i = some e → i ∈ g e)
    {i j : Nat} (h : memAt a g i j = true) : memAt a g i i = true := by
  obtain ⟨e, he, hm⟩ := memAt_elim h
  exact memAt_of he (htrans j i e hm he)

/-- A run ending left of the diagonal is no longer than the diagonal run of
its column: transported along b = a, every live cell of the run is live on
the diagonal as well. -/
theorem runlen_le_diag_left {a : List α} {g : α → List Nat}
    (hpos : ∀ (j : Nat) (e : α), j ∈ g e → a.get? j = some e) :
    ∀ i j, j ≤ i → runlen a g i j ≤ runlen a g j j
  | 0, 0, _ => le_refl _
  | 0, j + 1, h => absurd h (by omega)
  | i + 1, 0, _ => by
      rw [runlen_succ_zero_eq]
      by_cases hm : memAt a g (i + 1) 0 = true
      · have h2 := memAt_diag_left hpos hm
        rw [if_pos hm, runlen_zero_eq, if_pos h2]
      · rw [if_neg hm]
        exact Nat.zero_le _
  | i + 1, j + 1, h => by
      rw [runlen_succ_succ_eq]
      by_cases hm : memAt a g (i + 1) (j + 1) = true
      · have h2 := memAt_diag_left hpos hm
        rw [if_pos hm, runlen_succ_succ_eq, if_pos h2]
        have h3 := runlen_le_diag_left hpos i j (by omega)
        omega
      · rw [if_neg hm]
        exact Nat.zero_le _

/-- A run ending right of the diagonal is no longer than the diagonal run
of its row. -/
theorem runlen_le_diag_right {a : List α} {g : α → List Nat}
    (htrans : ∀ (j i : Nat) (e : α), j ∈ g e → a.get? i = some e → i ∈ g e) :
    ∀ i j, i ≤ j → runlen a g i j ≤ runlen a g i i
  | 0, j, _ => by
      rw [runlen_zero_eq]
      by_cases hm : memAt a g 0 j = true
      · have h2 := memAt_diag_right htrans hm
        rw [if_pos hm, runlen_zero_eq, if_pos h2]
      · rw [if_neg hm]
        exact Nat.zero_le _
  | i + 1, 0, h => absurd h (by omega)
  | i + 1, j + 1, h => by
      rw [runlen_succ_succ_eq]
      by_cases hm : memAt a g (i + 1) (j + 1) = true
      · have h2 := memAt_diag_right htrans hm
        rw [if_pos hm, runlen_succ_succ_eq, if_pos h2]
        have h3 := runlen_le_diag_right htrans i j (by omega)
        omega
      · rw [if_neg hm]
        exact Nat.zero_le _

/-- The j2len row the outer loop carries into row i: all zero before row 0,
afterwards the run lengths of the previous row. -/
def prevRow (a : List α) (g : α → List Nat) : Nat → Nat → Nat
  | 0, _ => 0
  | i + 1, j => runlen a g i j

/-- dpInner with the lets expanded. -/
theorem dpInner_eq (i : Nat) (old nj : Nat → Nat) (bi bj bs j : Nat) :
    dpInner i old (nj, bi, bj, bs) j =
      if bs < (if j = 0 then 0 else old (j - 1)) + 1 then
        (fun x => if x = j then (if j = 0 then 0 else old (j - 1)) + 1 else nj x,
          i + 1 - ((if j = 0 then 0 else old (j - 1)) + 1),
          j + 1 - ((if j = 0 then 0 else old (j - 1)) + 1),
          (if j = 0 then 0 else old (j - 1)) + 1)
      else
        (fun x => if x = j then (if j = 0 then 0 else old (j - 1)) + 1 else nj x,
          bi, bj, bs) := rfl

/-- The k the inner loop computes at a live cell is the run length. -/
theorem prevRow_k {a : List α} {g : α → List Nat} {i j : Nat} {e : α}
    (he : a.get? i = some e) (hm : j ∈ g e) :
    (if j = 0 then 0 else prevRow a g i (j - 1)) + 1 = runlen a g i j := by
  have hmem := memAt_of he hm
  cases i with
  | zero =>
      rw [runlen_zero_eq, if_pos hmem]
      cases j with
      | zero => simp
      | succ j2 => simp [prevRow]
  | succ i2 =>
      cases j with
      | zero => rw [runlen_succ_zero_eq, if_pos hmem]; simp
      | succ j2 =>
          rw [runlen_succ_succ_eq, if_pos hmem]
          simp [prevRow]

/-- Invariant of the inner fold on identical sequences: the new row function
holds the run lengths at the live columns, the best block is diagonal and in
range, and the best size dominates every run of the processed rows. -/
abbrev diagPost (a : List α) (g : α → List Nat) (i : Nat) (e : α)
    (r : (Nat → Nat) × Nat × Nat × Nat) : Prop :=
  (∀ x, r.1 x = if x ∈ g e then runlen a g i x else 0) ∧
  r.2.1 = r.2.2.1 ∧
  r.2.1 + r.2.2.2 ≤ a.length ∧
  (∀ i2, i2 < i → ∀ x, runlen a g i2 x ≤ r.2.2.2) ∧
  (∀ x ∈ g e, runlen a g i x ≤ r.2.2.2)

theorem dpInner_diag_fold {a : List α} {g : α → List Nat}
    (hpos : ∀ (j : Nat) (e : α), j ∈ g e → a.get? j = some e)
    (htrans : ∀ (j i : Nat) (e : α), j ∈ g e → a.get? i = some e → i ∈ g e)
    {i : Nat} {e : α} (he : a.get? i = some e) (hin : i < a.length) :
    ∀ (scanned processed : List Nat) (nj : Nat → Nat) (bi bs : Nat),
      processed ++ scanned = g e →
      (g e).Pairwise (· < ·) →
      (∀ x, nj x = if x ∈ processed then runlen a g i x else 0) →
      bi + bs ≤ a.length →
      (∀ i2, i2 < i → ∀ x, runlen a g i2 x ≤ bs) →
      (∀ x ∈ processed, runlen a g i x ≤ bs) →
      diagPost a g i e (scanned.foldl (dpInner i (prevRow a g i)) (nj, bi, bi, bs)) := by
  intro scanned
  induction scanned with
  | nil =>
      intro processed nj bi bs hsplit hpw hnj hbound hdom1 hdom2
      have hpe : processed = g e := by simpa using hsplit
      subst hpe
      exact ⟨hnj, rfl, hbound, hdom1, hdom2⟩
  | cons j rest ih =>
      intro processed nj bi bs hsplit hpw hnj hbound hdom1 hdom2
      rw [List.foldl_cons]
      have hjmem : j ∈ g e := by
        have hj : j ∈ processed ++ j :: rest := by simp
        rwa [hsplit] at hj
      have hk := prevRow_k he hjmem
      rw [dpInner_eq, hk]
      have hsplit2 : (processed ++ [j]) ++ rest = g e := by
        rw [List.append_assoc]
        simpa using hsplit
      have hnj2 : ∀ x, (fun x => if x = j then runlen a g i j else nj x) x =
          if x ∈ processed ++ [j] then runlen a g i x else 0 := by
        intro x
        by_cases hx : x = j
        · subst hx
          simp
        · show (if x = j then runlen a g i j else nj x) = _
          rw [if_neg hx, hnj x]
          have hiff : (x ∈ processed) ↔ (x ∈ processed ++ [j]) := by simp [hx]
          exact if_congr hiff rfl rfl
      by_cases hlt : bs < runlen a g i j
      · rw [if_pos hlt]
        rcases Nat.lt_trichotomy j i with hji | heq | hij
        · exfalso
          have h1 := hdom1 j hji j
          have h2 := runlen_le_diag_left hpos i j (by omega)
          omega
        · subst heq
          apply ih (processed ++ [j])
            (fun x => if x = j then runlen a g j j else nj x)
            (j + 1 - runlen a g j j) (runlen a g j j)
            hsplit2 hpw hnj2
          · have := runlen_le a g j j
            omega
          · intro i2 h2 x
            have := hdom1 i2 h2 x
            omega
          · intro x hx
            rcases List.mem_append.mp hx with hx2 | hx2
            · have := hdom2 x hx2
              omega
            · have hxj : x = j := by simpa using hx2
              subst hxj
              exact le_refl _
        · exfalso
          have hig : i ∈ g e := htrans j i e hjmem he
          have hmem2 : i ∈ processed ++ j :: rest := by rw [hsplit]; exact hig
          have hip : i ∈ processed := by
            rcases List.mem_append.mp hmem2 with hp | hc
            · exact hp
            · exfalso
              have hppw : (processed ++ j :: rest).Pairwise (· < ·) := by
                rw [hsplit]; exact hpw
              have h2 := (List.pairwise_append.mp hppw).2.1
              rcases List.mem_cons.mp hc with h3 | h3
              · omega
              · have := (List.pairwise_cons.mp h2).1 i h3
                omega
          have h1 := hdom2 i hip
          have h2 := runlen_le_diag_right htrans i j (by omega)
          omega
      · rw [if_neg hlt]
        apply ih (processed ++ [j])
          (fun x => if x = j then runlen a g i j else nj x) bi bs
          hsplit2 hpw hnj2 hbound hdom1
        intro x hx
        rcases List.mem_append.mp hx with hx2 | hx2
        · exact hdom2 x hx2
        · have hxj : x = j := by simpa using hx2
          subst hxj
          omega

/-- Invariant the outer loop keeps on identical sequences: j2len holds the
previous row, the best block is diagonal and in range, and the best size
dominates every run of the processed rows. -/
abbrev dpDiagInv (a : List α) (g : α → List Nat) (i : Nat) (st : DPState) : Prop :=
  (∀ x, st.j2len x = prevRow a g i x) ∧
  st.besti = st.bestj ∧
  st.besti + st.bestsize ≤ a.length ∧
  (∀ i2, i2 < i → ∀ x, runlen a g i2 x ≤ st.bestsize)

theorem get?_lt_length {l : List α} {i : Nat} {x : α} (h : l.get? i = some x) :
    i < l.length := by
  by_contra hc
  rw [List.get?_eq_none.mpr (by omega)] at h
  cases h

/-- A row function satisfying the inner-fold invariant yields the outer
invariant for the next row. -/
theorem diagPost_to_inv {a : List α} {g : α → List Nat} {i : Nat} {e : α}
    (he : a.get? i = some e) (r : (Nat → Nat) × Nat × Nat × Nat)
    (h : diagPost a g i e r) :
    dpDiagInv a g (i + 1) ⟨r.2.1, r.2.2.1, r.2.2.2, r.1⟩ := by
  obtain ⟨p1, p2, p3, p4, p5⟩ := h
  have hzero : ∀ x, x ∉ g e → runlen a g i x = 0 := by
    intro x hx
    apply runlen_eq_zero
    by_contra hmm2
    rw [Bool.not_eq_false] at hmm2
    obtain ⟨e2, he2, hm2⟩ := memAt_elim hmm2
    rw [he] at he2
    exact hx ((Option.some.inj he2) ▸ hm2)
  refine ⟨?_, p2, p3, ?_⟩
  · intro x
    show r.1 x = prevRow a g (i + 1) x
    rw [p1 x]
    by_cases hx : x ∈ g e
    · rw [if_pos hx]; rfl
    · rw [if_neg hx]
      exact (hzero x hx).symm
  · intro i2 h2x x
    rcases Nat.lt_succ_iff_lt_or_eq.mp h2x with h5 | h5
    · exact p4 i2 h5 x
    · subst h5
      by_cases hx : x ∈ g e
      · exact p5 x hx
      · rw [hzero x hx]
        exact Nat.zero_le _

/-- dpOuter at a row whose element is known. -/
theorem dpOuter_run {a : List α} (b2jf : α → List Nat) (blo bhi : Nat)
    (st : DPState) (i : Nat) {e : α} (he : a.get? i = some e) :
    dpOuter a b2jf blo bhi st i =
      ⟨(((b2jf e).filter (fun j => decide (blo ≤ j) && decide (j < bhi))).foldl
          (dpInner i st.j2len) (fun _ => 0, st.besti, st.bestj, st.bestsize)).2.1,
       (((b2jf e).filter (fun j => decide (blo ≤ j) && decide (j < bhi))).foldl
          (dpInner i st.j2len) (fun _ => 0, st.besti, st.bestj, st.bestsize)).2.2.1,
       (((b2jf e).filter (fun j => decide (blo ≤ j) && decide (j < bhi))).foldl
          (dpInner i st.j2len) (fun _ => 0, st.besti, st.bestj, st.bestsize)).2.2.2,
       (((b2jf e).filter (fun j => decide (blo ≤ j) && decide (j < bhi))).foldl
          (dpInner i st.j2len) (fun _ => 0, st.besti, st.bestj, st.bestsize)).1⟩ := by
  unfold dpOuter
  rw [he]

theorem dpOuter_diag_step {a : List α} {g : α → List Nat}
    (hpos : ∀ (j : Nat) (e : α), j ∈ g e → a.get? j = some e)
    (htrans : ∀ (j i : Nat) (e : α), j ∈ g e → a.get? i = some e → i ∈ g e)
    (hpw : ∀ e, (g e).Pairwise (· < ·))
    {i : Nat} (hin : i < a.length) {st : DPState} (h : dpDiagInv a g i st) :
    dpDiagInv a g (i + 1) (dpOuter a g 0 a.length st i) := by
  obtain ⟨h1, h2, h3, h4⟩ := h
  obtain ⟨e, he⟩ := get?_some_of_lt hin
  have hjlen : st.j2len = prevRow a g i := funext h1
  have hfil : (g e).filter (fun j => decide (0 ≤ j) && decide (j < a.length)) = g e := by
    apply List.filter_eq_self.mpr
    intro j hj
    have hlt := get?_lt_length (hpos j e hj)
    simp [hlt]
  rw [dpOuter_run g 0 a.length st i he, hfil, hjlen, h2]
  have hpost := dpInner_diag_fold hpos htrans he hin (g e) [] (fun _ => 0)
    st.bestj st.bestsize (by simp) (hpw e) (by intro x; simp) (h2 ▸ h3) h4
    (by intro x hx; cases hx)
  exact diagPost_to_inv he _ hpost

theorem dpLoop_diag {a : List α} {g : α → List Nat}
    (hpos : ∀ (j : Nat) (e : α), j ∈ g e → a.get? j = some e)
    (htrans : ∀ (j i : Nat) (e : α), j ∈ g e → a.get? i = some e → i ∈ g e)
    (hpw : ∀ e, (g e).Pairwise (· < ·)) :
    ∀ (cnt s : Nat) (st : DPState), s + cnt ≤ a.length → dpDiagInv a g s st →
      dpDiagInv a g (s + cnt) ((List.range' s cnt).foldl (dpOuter a g 0 a.length) st)
  | 0, s, st, _, h => by simpa using h
  | cnt + 1, s, st, hle, h => by
      rw [List.range'_succ, List.foldl_cons]
      have hstep := dpOuter_diag_step hpos htrans hpw (show s < a.length by omega) h
      have hrec := dpLoop_diag hpos htrans hpw cnt (s + 1)
        (dpOuter a g 0 a.length st s) (by omega) hstep
      have heq : s + (cnt + 1) = (s + 1) + cnt := by omega
      rw [heq]
      exact hrec

theorem dpPhase_diag {a : List α} {g : α → List Nat}
    (hpos : ∀ (j : Nat) (e : α), j ∈ g e → a.get? j = some e)
    (htrans : ∀ (j i : Nat) (e : α), j ∈ g e → a.get? i = some e → i ∈ g e)
    (hpw : ∀ e, (g e).Pairwise (· < ·)) :
    dpDiagInv a g a.length (dpPhase a g 0 a.length 0 a.length) := by
  unfold dpPhase
  have h0 : dpDiagInv a g 0 ⟨0, 0, 0, fun _ => 0⟩ := by
    refine ⟨fun x => rfl, rfl, by simp, ?_⟩
    intro i2 h2 x
    exact absurd h2 (Nat.not_lt_zero i2)
  have hres := dpLoop_diag hpos htrans hpw a.length 0 ⟨0, 0, 0, fun _ => 0⟩
    (by omega) h0
  simpa using hres

theorem posList_mem_of {b : List α} {e : α} {j : Nat} (hb : b.get? j = some e) :
    j ∈ posList b e := by
  unfold posList
  rw [List.mem_filter]
  refine ⟨?_, by simpa using hb⟩
  rw [List.mem_range]
  exact get?_lt_length hb

/-- Both purge gates of __chain_b depend only on the element value, so a
surviving position transports to every other position of the same value. -/
theorem b2j_transfer {isjunk : α → Bool} {autojunk : Bool} {b : List α} {e : α}
    {j i : Nat} (h : j ∈ b2j isjunk autojunk b e) (hb : b.get? i = some e) :
    i ∈ b2j isjunk autojunk b e := by
  unfold b2j at h ⊢
  by_cases h1 : isjunk e
  · rw [if_pos h1] at h; cases h
  · rw [if_neg h1] at h ⊢
    by_cases h2 : autojunk && decide (200 ≤ b.length) &&
        decide (b.length / 100 + 1 < (posList b e).length)
    · simp only [h2, if_pos] at h; cases h
    · simp only [h2, if_neg, Bool.false_eq_true, not_false_eq_true]
      exact posList_mem_of hb

theorem posList_pairwise (b : List α) (e : α) :
    (posList b e).Pairwise (· < ·) := by
  unfold posList
  exact List.Pairwise.sublist (List.filter_sublist _) (List.pairwise_lt_range _)

theorem b2j_pairwise (isjunk : α → Bool) (autojunk : Bool) (b : List α) (e : α) :
    (b2j isjunk autojunk b e).Pairwise (· < ·) := by
  unfold b2j
  by_cases h1 : isjunk e
  · rw [if_pos h1]; exact List.Pairwise.nil
  · rw [if_neg h1]
    by_cases h2 : autojunk && decide (200 ≤ b.length) &&
        decide (b.length / 100 + 1 < (posList b e).length)
    · simp only [h2, if_pos]
      exact List.Pairwise.nil
    · simp only [h2, if_neg, Bool.false_eq_true, not_false_eq_true]
      exact posList_pairwise b e

/-- Backward extension with an all-true condition on identical sequences
runs a diagonal block down to the start of the range. -/
theorem extendLo_self (a : List α) (cond : α → Bool)
    (hcond : ∀ y, cond y = true) :
    ∀ (fuel bi bs : Nat), bi ≤ fuel → bi + bs ≤ a.length →
      extendLo a a cond 0 0 fuel (bi, bi, bs) = (0, 0, bs + bi)
  | 0, bi, bs, hf, _ => by
      have hbi : bi = 0 := by omega
      subst hbi
      rfl
  | fuel + 1, 0, bs, _, _ => by
      show (if extGuardLo a a cond 0 0 0 0 then _ else _) = _
      rw [if_neg (by simp [extGuardLo])]
      rfl
  | fuel + 1, bi + 1, bs, hf, hb => by
      obtain ⟨v, hv⟩ := get?_some_of_lt (show bi < a.length by omega)
      have hv2 : a[bi]? = some v := by simpa using hv
      have hg : extGuardLo a a cond 0 0 (bi + 1) (bi + 1) = true := by
        unfold extGuardLo
        simp [hv2, hcond]
      show (if extGuardLo a a cond 0 0 (bi + 1) (bi + 1) then _ else _) = _
      rw [if_pos hg]
      show extendLo a a cond 0 0 fuel (bi, bi, bs + 1) = _
      rw [extendLo_self a cond hcond fuel bi (bs + 1) (by omega) (by omega)]
      rw [show bs + 1 + bi = bs + (bi + 1) from by omega]

/-- Forward extension with an all-true condition on identical sequences
runs a diagonal block up to the end of the range. -/
theorem extendHi_self (a : List α) (cond : α → Bool)
    (hcond : ∀ y, cond y = true) :
    ∀ (fuel bs : Nat), bs ≤ a.length → a.length ≤ bs + fuel →
      extendHi a a cond a.length a.length fuel (0, 0, bs) = (0, 0, a.length)
  | 0, bs, h1, h2 => by
      have hbs : bs = a.length := by omega
      subst hbs
      rfl
  | fuel + 1, bs, h1, h2 => by
      by_cases hlt : bs < a.length
      · obtain ⟨v, hv⟩ := get?_some_of_lt hlt
        have hv2 : a[bs]? = some v := by simpa using hv
        have hg : extGuardHi a a cond a.length a.length 0 0 bs = true := by
          unfold extGuardHi
          simp [hv2, hcond, hlt]
        show (if extGuardHi a a cond a.length a.length 0 0 bs then _ else _) = _
        rw [if_pos hg]
        show extendHi a a cond a.length a.length fuel (0, 0, bs + 1) = _
        exact extendHi_self a cond hcond fuel (bs + 1) (by omega) (by omega)
      · have hbs : bs = a.length := by omega
        subst hbs
        show (if extGuardHi a a cond a.length a.length 0 0 a.length then _ else _) = _
        rw [if_neg (by simp [extGuardHi])]

/-- Extension loops whose condition never holds leave the state unchanged. -/
theorem extendLo_never (a b : List α) (cond : α → Bool)
    (hcond : ∀ y, cond y = false) (alo blo : Nat) :
    ∀ (fuel : Nat) (st : Nat × Nat × Nat),
      extendLo a b cond alo blo fuel st = st
  | 0, st => rfl
  | fuel + 1, (bi, bj, bs) => by
      have hg : extGuardLo a b cond alo blo bi bj = false := by
        unfold extGuardLo
        rcases a.get? (bi - 1) with _ | x <;> rcases b.get? (bj - 1) with _ | y <;>
          simp [hcond]
      show (if extGuardLo a b cond alo blo bi bj then _ else _) = _
      rw [hg]
      rfl

theorem extendHi_never (a b : List α) (cond : α → Bool)
    (hcond : ∀ y, cond y = false) (ahi bhi : Nat) :
    ∀ (fuel : Nat) (st : Nat × Nat × Nat),
      extendHi a b cond ahi bhi fuel st = st
  | 0, st => rfl
  | fuel + 1, (bi, bj, bs) => by
      have hg : extGuardHi a b cond ahi bhi bi bj bs = false := by
        unfold extGuardHi
        rcases a.get? (bi + bs) with _ | x <;> rcases b.get? (bj + bs) with _ | y <;>
          simp [hcond]
      show (if extGuardHi a b cond ahi bhi bi bj bs then _ else _) = _
      rw [hg]
      rfl

/-- find_longest_match on two identical sequences over the full ranges
returns the whole diagonal, junk purging and autojunk notwithstanding,
when the junk predicate holds nowhere (ndiff passes linejunk=None). -/
theorem findLongestMatch_self (isjunk : α → Bool) (autojunk : Bool)
    (hj : ∀ e, isjunk e = false) (a : List α) :
    findLongestMatch isjunk autojunk a a 0 a.length 0 a.length =
      (0, 0, a.length) := by
  have hpos : ∀ (j : Nat) (e : α), j ∈ b2j isjunk autojunk a e →
      a.get? j = some e := fun j e hju => b2j_mem hju
  have htrans : ∀ (j i : Nat) (e : α), j ∈ b2j isjunk autojunk a e →
      a.get? i = some e → i ∈ b2j isjunk autojunk a e :=
    fun j i e hju hb => b2j_transfer hju hb
  have hpw : ∀ e, (b2j isjunk autojunk a e).Pairwise (· < ·) :=
    fun e => b2j_pairwise isjunk autojunk a e
  obtain ⟨h1, h2, h3, h4⟩ := dpPhase_diag hpos htrans hpw
  have hcondT : ∀ y, (fun e => ! isjunk e) y = true := by
    intro y
    simp [hj y]
  simp only [findLongestMatch]
  rw [← h2]
  rw [extendLo_self a (fun e => ! isjunk e) hcondT
    (dpPhase a (b2j isjunk autojunk a) 0 a.length 0 a.length).besti
    (dpPhase a (b2j isjunk autojunk a) 0 a.length 0 a.length).besti
    (dpPhase a (b2j isjunk autojunk a) 0 a.length 0 a.length).bestsize
    (le_refl _) h3]
  rw [extendHi_self a (fun e => ! isjunk e) hcondT a.length
    ((dpPhase a (b2j isjunk autojunk a) 0 a.length 0 a.length).bestsize +
      (dpPhase a (b2j isjunk autojunk a) 0 a.length 0 a.length).besti)
    (by omega) (by omega)]
  rw [show ((0 : Nat), (0 : Nat), a.length).1 = 0 from rfl]
  rw [extendLo_never a a isjunk (fun y => hj y) 0 0]
  rw [extendHi_never a a isjunk (fun y => hj y) a.length a.length]

theorem matchingBlocksRec_self (isjunk : α → Bool) (autojunk : Bool)
    (hj : ∀ e, isjunk e = false) (a : List α) (m : Nat) (hm : a.length = m + 1) :
    matchingBlocksRec isjunk autojunk a a a.length 0 a.length 0 a.length =
      [(0, 0, a.length)] := by
  have h := findLongestMatch_self isjunk autojunk hj a
  rw [hm] at h ⊢
  rw [matchingBlocksRec]
  simp only [h]
  simp

theorem getMatchingBlocks_self (isjunk : α → Bool) (autojunk : Bool)
    (hj : ∀ e, isjunk e = false) (a : List α) (h0 : a ≠ []) :
    getMatchingBlocks isjunk autojunk a a =
      [(0, 0, a.length), (a.length, a.length, 0)] := by
  have hlen : 0 < a.length := List.length_pos.mpr h0
  have hne : a.length ≠ 0 := by omega
  obtain ⟨m, hm⟩ : ∃ m, a.length = m + 1 := ⟨a.length - 1, by omega⟩
  unfold getMatchingBlocks
  rw [matchingBlocksRec_self isjunk autojunk hj a m hm]
  simp [collapseBlocks, hne]

theorem getOpcodes_self (isjunk : α → Bool) (autojunk : Bool)
    (hj : ∀ e, isjunk e = false) (a : List α) (h0 : a ≠ []) :
    getOpcodes isjunk autojunk a a = [(OpTag.equal, 0, a.length, 0, a.length)] := by
  have hlen : 0 < a.length := List.length_pos.mpr h0
  have hne : a.length ≠ 0 := by omega
  unfold getOpcodes
  rw [getMatchingBlocks_self isjunk autojunk hj a h0]
  simp [opcodesFrom, hne]

end Identity

/-- Differ.compare on two identical line lists emits every line once,
tagged "  ". -/
theorem compareLines_self (a : List Line) (h0 : a ≠ []) :
    compareLines a a = a.map (fun l => [' ', ' '] ++ l) := by
  unfold compareLines
  rw [getOpcodes_self noLineJunk true (fun e => rfl) a h0]
  simp [dump, sub]

/-- The row list of the identity comparison per the spec: one unchanged row
per line, both sides numbered k, k+1, ... with the raw line as content. -/
def identityRows : Nat → List Line → List Row
  | _, [] => []
  | k, l :: rest => Row.unchanged k k l :: identityRows (k + 1) rest

theorem identityRows_length : ∀ (ls : List Line) (k : Nat),
    (identityRows k ls).length = ls.length
  | [], _ => rfl
  | l :: rest, k => by
      rw [identityRows]
      simp [identityRows_length rest (k + 1)]

theorem numberRows_all_space : ∀ (ls : List Line) (k : Nat),
    numberRows k k (ls.map (fun l => [' ', ' '] ++ l)) = identityRows k ls
  | [], _ => rfl
  | l :: rest, k => by
      rw [List.map_cons, numberRows, identityRows]
      have t := take_two_tag ' ' ' ' l
      simp only [t.1, t.2]
      rw [if_pos trivial, numberRows_all_space rest (k + 1)]

/-- Claim C7: for an input with at least one line, generate_diff_html(s, s)
emits exactly one row per line of s.splitlines(): the rows are precisely the
unchanged rows numbered 1, 2, ... on both sides carrying each line verbatim
(so no added/removed/modified row styling appears), their count equals the
line count, and the returned HTML is exactly the header, those rows, and the
footer - the self-alignment is a single equal run spanning everything. -/
theorem generate_diff_html_identity (s : List Char) (h : splitlines s ≠ []) :
    diffRows s s = identityRows 1 (splitlines s) ∧
    (diffRows s s).length = (splitlines s).length ∧
    generateDiffHtml s s =
      htmlHeader ++ ((identityRows 1 (splitlines s)).map rowHtml).flatten ++
        htmlFooter := by
  have hc := compareLines_self (splitlines s) h
  have hrows : diffRows s s = identityRows 1 (splitlines s) := by
    unfold diffRows
    rw [hc, numberRows_all_space]
  refine ⟨hrows, ?_, ?_⟩
  · rw [hrows, identityRows_length]
  · rw [generateDiffHtml_eq_rows, hrows]

/-- Witness for C7 on the two-line input "ab\ncd". -/
theorem generate_diff_html_identity_witness :
    splitlines "ab\ncd".data ≠ [] ∧
    diffRows "ab\ncd".data "ab\ncd".data =
      identityRows 1 (splitlines "ab\ncd".data) :=
  ⟨by decide, (generate_diff_html_identity "ab\ncd".data (by decide)).1⟩


/-! ## Claim C10: verbatim insertion of line text into the HTML -/

theorem infix_unchangedRowHtml (n1 n2 : Nat) (c : Line) :
    List.IsInfix c (unchangedRowHtml n1 n2 c) := by
  unfold unchangedRowHtml
  refine ⟨"\n                    <tr>\n                        <td class=\"line-num\">".data ++
      natStr n1 ++ "</td>\n                        <td>".data,
    "</td>\n                        <td class=\"line-num\">".data ++ natStr n2 ++
      "</td>\n                        <td>".data ++ c ++
      "</td>\n                    </tr>\n                ".data, ?_⟩
  simp only [List.append_assoc]

theorem infix_removedRowHtml (n1 : Nat) (c : Line) :
    List.IsInfix c (removedRowHtml n1 c) := by
  unfold removedRowHtml
  refine ⟨"\n                    <tr>\n                        <td class=\"line-num\">".data ++
      natStr n1 ++ "</td>\n                        <td class=\"removed\">".data,
    "</td>\n                        <td class=\"line-num\"></td>\n                        <td></td>\n                    </tr>\n                ".data, ?_⟩
  simp only [List.append_assoc]

theorem infix_addedRowHtml (n2 : Nat) (c : Line) :
    List.IsInfix c (addedRowHtml n2 c) := by
  unfold addedRowHtml
  refine ⟨"\n                    <tr>\n                        <td class=\"line-num\"></td>\n                        <td></td>\n                        <td class=\"line-num\">".data ++
      natStr n2 ++ "</td>\n                        <td class=\"added\">".data,
    "</td>\n                    </tr>\n                ".data, ?_⟩
  simp only [List.append_assoc]

/-- Claim C10: every input line's exact character sequence — HTML
metacharacters included — appears unchanged as a substring of the string
generate_diff_html returns: contents are interpolated with no escaping. -/
theorem generate_diff_html_verbatim (file1Data file2Data l : List Char)
    (h : l ∈ splitlines file1Data ∨ l ∈ splitlines file2Data) :
    List.IsInfix l (generateDiffHtml file1Data file2Data) := by
  have hrt := generate_diff_html_roundtrip file1Data file2Data
  have hrow : ∃ r, r ∈ diffRows file1Data file2Data ∧
      (leftCell r = some l ∨ rightCell r = some l) := by
    rcases h with h | h
    · rw [← hrt.1] at h
      obtain ⟨r, hr, hc⟩ := List.mem_filterMap.mp h
      exact ⟨r, hr, Or.inl hc⟩
    · rw [← hrt.2] at h
      obtain ⟨r, hr, hc⟩ := List.mem_filterMap.mp h
      exact ⟨r, hr, Or.inr hc⟩
  obtain ⟨r, hr, hc⟩ := hrow
  have hinrow : List.IsInfix l (rowHtml r) := by
    cases r with
    | unchanged n1 n2 c =>
        have hcl : c = l := by
          rcases hc with hc | hc <;> exact Option.some.inj hc
        subst hcl
        exact infix_unchangedRowHtml n1 n2 c
    | removed n1 c =>
        have hcl : c = l := by
          rcases hc with hc | hc
          · exact Option.some.inj hc
          · cases hc
        subst hcl
        exact infix_removedRowHtml n1 c
    | added n2 c =>
        have hcl : c = l := by
          rcases hc with hc | hc
          · cases hc
          · exact Option.some.inj hc
        subst hcl
        exact infix_addedRowHtml n2 c
  have hinflat : List.IsInfix (rowHtml r)
      (((diffRows file1Data file2Data).map rowHtml).flatten) := by
    apply List.infix_of_mem_flatten
    exact List.mem_map_of_mem rowHtml hr
  rw [generateDiffHtml_eq_rows]
  have hmid : List.IsInfix (rowHtml r)
      (htmlHeader ++ ((diffRows file1Data file2Data).map rowHtml).flatten ++ htmlFooter) := by
    apply hinflat.trans
    refine ⟨htmlHeader, htmlFooter, ?_⟩
    rfl
  exact hinrow.trans hmid

/-- Witness for C10 with HTML metacharacters in the line. -/
theorem generate_diff_html_verbatim_witness :
    List.IsInfix "<b>&x".data (generateDiffHtml "<b>&x".data "y".data) :=
  generate_diff_html_verbatim "<b>&x".data "y".data "<b>&x".data
    (Or.inl (by decide))

end Disbin
